import Mathlib

/-!
# A verification model of gradylib's OpenHashSetTC

Shallow embedding of `src/OpenHashSetTC.hpp` (the open-addressing,
trivially-copyable hash set with tombstones and a memory-mappable on-disk
format) together with proofs about its operations.

Modelling conventions:
* `size_t` values are modelled as `Nat`.  Overflow is irrelevant for every
  statement below except the `--setSize` decrement in `erase`, which is
  modelled by `decSizeT` (wrapping at 0 exactly like a 64-bit unsigned
  decrement would).
* The IEEE-754 `double` fields `loadFactor` (default 0.8) and `growthFactor`
  (default 1.2) are modelled as exact rationals `4/5` and `6/5`; the
  `double → size_t` conversions in `rehash` truncate towards zero and are
  modelled by `Nat.floor`.
* Each probing loop carries explicit fuel.  All three loops in the source
  either break after wrapping around to their start index (after exactly
  `capacity` steps) or, in the case of the loop inside `rehash`, can only run
  forever when no free slot exists; fuel `capacity` is therefore exact for
  the first kind and agrees with the source whenever a free slot exists for
  the second kind (all theorems below only use it in that situation).
* C++ exceptions become `Except GradyError`.  Genuinely undefined behaviour
  (the `hash % keySize` with `keySize == 0` in `erase`) is surfaced as the
  distinguished error `GradyError.ModuloByZero`.
* `BitPairSet.hpp` (the Occupancy Index) is included by the source header but
  is not part of the sources available under `src/`; its operations and
  serialized layout are modelled from the spec (see `flagsAt` etc. below).
-/

set_option maxHeartbeats 1000000
set_option linter.unusedSectionVars false

namespace gradylib

/-- Error kinds of the library, following the spec's taxonomy (§7).
`ModuloByZero` is not a C++ exception: it marks the undefined behaviour of
evaluating `hash % keySize` with `keySize == 0` (reachable in `erase`, which
unlike `contains` and `insert` has no `keySize == 0` guard). -/
inductive GradyError where
  | IOError
  | MappingError
  | ReadOnlyViolation
  | KeyNotFound
  | InvalidCopy
  | ModuloByZero
deriving DecidableEq

instance {ε α : Type} [DecidableEq ε] [DecidableEq α] : DecidableEq (Except ε α) := fun a b =>
  match a, b with
  | .ok x, .ok y =>
    if h : x = y then isTrue (by rw [h]) else isFalse (by intro hc; cases hc; exact h rfl)
  | .error x, .error y =>
    if h : x = y then isTrue (by rw [h]) else isFalse (by intro hc; cases hc; exact h rfl)
  | .ok _, .error _ => isFalse (by intro hc; cases hc)
  | .error _, .ok _ => isFalse (by intro hc; cases hc)

/-- One slot of the Occupancy Index: `(occupied, everOccupied)`, i.e. the
`(isSet, wasSet)` pair returned by `BitPairSet::operator[]`.

Modelled from the spec: `BitPairSet.hpp` is not under `src/`; spec §4.1
describes the Occupancy Index as a packed two-bit-per-slot flag array with
`get(i) → (occupied, everOccupied)`, `setOccupiedAndEver(i)` (`setBoth`),
`clearOccupied(i)` (`unsetFirst`, leaving `everOccupied` true) and `clear()`
resetting all slots. -/
abbrev BitPair := Bool × Bool

/-- `BitPairSet::operator[]` / `get(i)`: reading a slot of the flag array. -/
def flagsAt (f : List BitPair) (i : Nat) : BitPair := f.getD i (false, false)

/-- `BitPairSet::isFirstSet(i)`: the `occupied` bit. -/
def isFirstSet (f : List BitPair) (i : Nat) : Bool := (flagsAt f i).1

/-- `BitPairSet::setBoth(i)`: mark a slot occupied and ever-occupied. -/
def setBoth (f : List BitPair) (i : Nat) : List BitPair := f.set i (true, true)

/-- `BitPairSet::unsetFirst(i)`: tombstone a slot (clear `occupied`, keep
`everOccupied`). -/
def unsetFirst (f : List BitPair) (i : Nat) : List BitPair :=
  f.set i (false, (flagsAt f i).2)

/-- `BitPairSet::clear()`: reset every slot (both bits). -/
def clearFlags (f : List BitPair) : List BitPair :=
  f.map (fun _ => ((false : Bool), (false : Bool)))

/-- `gradylib::OpenHashSetTC<Key>`: field-for-field model of the class.
`keys` is the `Key*` array viewed as a list of length `keySize`;
`memoryMapping` models the `void*` (`some` = a live mapping token);
`fd` the file descriptor. Defaults are the C++ member initializers. -/
structure OpenHashSetTC (Key : Type) where
  keys : List Key := []
  setFlags : List BitPair := []
  loadFactor : ℚ := 4/5
  growthFactor : ℚ := 6/5
  keySize : Nat := 0
  setSize : Nat := 0
  fd : Int := -1
  mappingSize : Nat := 0
  memoryMapping : Option Nat := none
  readOnly : Bool := false
deriving DecidableEq

variable {Key : Type} [DecidableEq Key] [Inhabited Key]

/-- `OpenHashSetTC()`: the default-constructed (empty, owned) set. -/
def emptySet : OpenHashSetTC Key := {}

/-- `++idx; idx = idx == keySize ? 0 : idx;` — advance a probe index with
wrap-around. -/
def nextIdx (n idx : Nat) : Nat := if idx + 1 = n then 0 else idx + 1

/-- 64-bit unsigned decrement (`--setSize` on a `size_t`), wrapping at 0. -/
def decSizeT (n : Nat) : Nat := if n = 0 then 2 ^ 64 - 1 else n - 1

/-- The probe loop of `OpenHashSetTC::contains` (source lines 299-309).
Walks from `idx` while a slot is occupied or ever-occupied; returns `true`
on an occupied slot holding `key`, `false` on a tombstone holding `key`
(the tombstone shortcut) and `false` when the walk leaves the chain.  The
fuel models the `if (startIdx == idx) break` full-cycle exit: the C++ loop
runs at most `keySize` iterations, after which it breaks and returns
`false`, exactly like fuel `keySize` running out. -/
def containsLoop (keys : List Key) (flags : List BitPair) (key : Key) (n : Nat) :
    Nat → Nat → Bool
  | _, 0 => false
  | idx, fuel + 1 =>
    let p := flagsAt flags idx
    if p.1 || p.2 then
      if p.1 && decide (keys.getD idx default = key) then true
      else if p.2 && decide (keys.getD idx default = key) then false
      else containsLoop keys flags key n (nextIdx n idx) fuel
    else false

variable (hashFn : Key → Nat)

/-- `OpenHashSetTC::contains` (source lines 294-311), including the
`keySize == 0` early return. -/
def contains (T : OpenHashSetTC Key) (key : Key) : Bool :=
  if T.keySize = 0 then false
  else containsLoop T.keys T.setFlags key T.keySize (hashFn key % T.keySize) T.keySize

/-- The probe loop of `OpenHashSetTC::insert` (source lines 255-271):
like the `contains` walk, but additionally records the first non-occupied
slot encountered (`firstUnsetIdx` / `isFirstUnsetIdxSet`, modelled as an
`Option Nat`).  Returns `(doesContain, idx, firstUnset)` — the loop's state
at exit.  Fuel `keySize` models the full-cycle break as in `containsLoop`;
at fuel 0 the index has wrapped back to the start index, matching the value
`idx` holds at the C++ break. -/
def insertLoop (keys : List Key) (flags : List BitPair) (key : Key) (n : Nat) :
    Nat → Option Nat → Nat → Bool × Nat × Option Nat
  | idx, firstUnset, 0 => (false, idx, firstUnset)
  | idx, firstUnset, fuel + 1 =>
    let p := flagsAt flags idx
    if p.1 || p.2 then
      let fu := if firstUnset.isNone && !p.1 then some idx else firstUnset
      if p.1 && decide (keys.getD idx default = key) then (true, idx, fu)
      else if p.2 && decide (keys.getD idx default = key) then (false, idx, fu)
      else insertLoop keys flags key n (nextIdx n idx) fu fuel
    else (false, idx, firstUnset)

/-- The `while (setFlags.isFirstSet(idx))` walk used after an in-insert
rehash (source lines 281-285) and inside `rehash` itself (lines 115-118):
find a non-occupied slot.  The in-insert copy breaks after a full cycle
(fuel `n` is exact); the copy inside `rehash` has no break and loops forever
when the table has no free slot — with fuel `n` this model returns the
start index in that situation instead, and every use below is in a state
where a free slot exists, where both agree. -/
def freeSlotLoop (flags : List BitPair) (n : Nat) : Nat → Nat → Nat
  | idx, 0 => idx
  | idx, fuel + 1 =>
    if isFirstSet flags idx then freeSlotLoop flags n (nextIdx n idx) fuel else idx

/-- One iteration of the reinsertion loop of `OpenHashSetTC::rehash`
(source lines 108-121): live slot `i` of the old table is first-fit probed
into the new arrays. -/
def rehashStep (oldKeys : List Key) (oldFlags : List BitPair) (newSize : Nat)
    (acc : List Key × List BitPair) (i : Nat) : List Key × List BitPair :=
  if isFirstSet oldFlags i then
    let k := oldKeys.getD i default
    let idx := freeSlotLoop acc.2 newSize (hashFn k % newSize) newSize
    (acc.1.set idx k, setBoth acc.2 idx)
  else acc

/-- The body of `OpenHashSetTC::rehash` after `newSize` has been fixed
(source lines 106-125): fresh default-initialized key array and fresh
all-clear flags, then reinsert every occupied slot in slot order. -/
def rehashWith (T : OpenHashSetTC Key) (newSize : Nat) : OpenHashSetTC Key :=
  let init := (List.replicate newSize (default : Key),
               List.replicate newSize ((false, false) : BitPair))
  let r := (List.range T.keySize).foldl (rehashStep hashFn T.keys T.setFlags newSize) init
  { T with keys := r.1, setFlags := r.2, keySize := newSize }

/-- `OpenHashSetTC::rehash(size)` (source lines 96-126).  `size > 0` is a
live-entry target: no-op if below the current count, otherwise the new slot
count is `size / loadFactor` truncated; `size == 0` is the untargeted growth
`max(keySize + 1, max(1, keySize) * growthFactor)` (the outer `std::max<size_t>`
truncates the double product). -/
def rehash (T : OpenHashSetTC Key) (size : Nat) : OpenHashSetTC Key :=
  if 0 < size then
    if size < T.setSize then T
    else rehashWith hashFn T (Nat.floor ((size : ℚ) / T.loadFactor))
  else
    rehashWith hashFn T
      (max (T.keySize + 1) (Nat.floor ((max 1 T.keySize : ℚ) * T.growthFactor)))

/-- `OpenHashSetTC::insert` after the read-only check (source lines 245-291).
When `keySize = 0` the C++ probe block is skipped and `idx` stays
uninitialized; that value is never read because the `setSize >= keySize *
loadFactor` test is then `0 >= 0` and the rehash branch recomputes `idx`
from scratch — the model uses `(false, 0, none)` for that dead value. -/
def insertImpl (T : OpenHashSetTC Key) (key : Key) : OpenHashSetTC Key :=
  let probe :=
    if 0 < T.keySize then
      insertLoop T.keys T.setFlags key T.keySize (hashFn key % T.keySize) none T.keySize
    else (false, 0, none)
  if probe.1 then T
  else if (T.setSize : ℚ) ≥ (T.keySize : ℚ) * T.loadFactor then
    let T' := rehash hashFn T 0
    let idx := freeSlotLoop T'.setFlags T'.keySize (hashFn key % T'.keySize) T'.keySize
    { T' with keys := T'.keys.set idx key, setFlags := setBoth T'.setFlags idx,
              setSize := T'.setSize + 1 }
  else
    let idx := probe.2.2.getD probe.2.1
    { T with keys := T.keys.set idx key, setFlags := setBoth T.setFlags idx,
             setSize := T.setSize + 1 }

/-- `OpenHashSetTC::insert` (source lines 236-292): read-only check, then
the pure insertion. -/
def insert (T : OpenHashSetTC Key) (key : Key) : Except GradyError (OpenHashSetTC Key) :=
  if T.readOnly then .error .ReadOnlyViolation else .ok (insertImpl hashFn T key)

/-- The probe loop of `OpenHashSetTC::erase` (source lines 322-333): walk
the chain; on the first slot whose retained key equals `key`, tombstone it
and decrement the count when it is occupied, otherwise stop unchanged.
Returns the updated `(setFlags, setSize)`. -/
def eraseLoop (keys : List Key) (flags : List BitPair) (key : Key) (n : Nat)
    (setSize : Nat) : Nat → Nat → List BitPair × Nat
  | _, 0 => (flags, setSize)
  | idx, fuel + 1 =>
    let p := flagsAt flags idx
    if p.1 || p.2 then
      if decide (keys.getD idx default = key) then
        if p.1 then (unsetFirst flags idx, decSizeT setSize) else (flags, setSize)
      else eraseLoop keys flags key n setSize (nextIdx n idx) fuel
    else (flags, setSize)

/-- `OpenHashSetTC::erase` (source lines 313-334).  Unlike `contains`
(line 295) and `insert` (line 251), `erase` has no `keySize == 0` guard, so
`hash % keySize` divides by zero on an empty table: undefined behaviour,
surfaced here as `GradyError.ModuloByZero`. -/
def erase (T : OpenHashSetTC Key) (key : Key) : Except GradyError (OpenHashSetTC Key) :=
  if T.readOnly then .error .ReadOnlyViolation
  else if T.keySize = 0 then .error .ModuloByZero
  else
    let r := eraseLoop T.keys T.setFlags key T.keySize T.setSize
      (hashFn key % T.keySize) T.keySize
    .ok { T with setFlags := r.1, setSize := r.2 }

/-- `OpenHashSetTC::reserve` (source lines 336-343). -/
def reserve (T : OpenHashSetTC Key) (size : Nat) : Except GradyError (OpenHashSetTC Key) :=
  if T.readOnly then .error .ReadOnlyViolation else .ok (rehash hashFn T size)

/-- `OpenHashSetTC::clear` (source lines 396-404). -/
def clear (T : OpenHashSetTC Key) : Except GradyError (OpenHashSetTC Key) :=
  if T.readOnly then .error .ReadOnlyViolation
  else .ok { T with setFlags := clearFlags T.setFlags, setSize := 0 }

/-- `OpenHashSetTC::size` (source lines 392-394). -/
def size (T : OpenHashSetTC Key) : Nat := T.setSize

/-- The copy constructor (source lines 134-138).  It copies `keys` (a fresh
`new Key[s.keySize]` filled by `memcpy`), `keySize`, `setFlags`,
`loadFactor`, `growthFactor` and `setSize`; `readOnly`, `fd`,
`memoryMapping` and `mappingSize` are left at their member-initializer
defaults.  It contains no read-only check and never throws. -/
def copyCtor (s : OpenHashSetTC Key) : OpenHashSetTC Key :=
  { keys := (List.range s.keySize).map (fun i => s.keys.getD i default),
    keySize := s.keySize, setFlags := s.setFlags, loadFactor := s.loadFactor,
    growthFactor := s.growthFactor, setSize := s.setSize }

/-- The copy assignment operator (source lines 195-213): throws when the
source is read-only ("Can't copy readonly OpenHashSetTC" — the spec's
*InvalidCopy*); otherwise `freeResources()` on the destination (which nulls
the mapping and, if one was held, resets `fd` to -1) and a deep copy of the
source's data fields.  `readOnly` and `mappingSize` of the destination are
never reassigned. -/
def copyAssign (t s : OpenHashSetTC Key) : Except GradyError (OpenHashSetTC Key) :=
  if s.readOnly then .error .InvalidCopy
  else .ok
    { keys := (List.range s.keySize).map (fun i => s.keys.getD i default),
      keySize := s.keySize, setFlags := s.setFlags, loadFactor := s.loadFactor,
      growthFactor := s.growthFactor, setSize := s.setSize,
      readOnly := t.readOnly,
      fd := if t.memoryMapping.isSome then -1 else t.fd,
      mappingSize := t.mappingSize, memoryMapping := none }

/-- The move constructor (source lines 140-146), returned as
`(destination, moved-from source)`.  It takes `keys`, `keySize`, `setFlags`,
`loadFactor`, `growthFactor` and `setSize` and resets only `keys`,
`keySize` and `setSize` on the source; `fd`, `mappingSize`, `memoryMapping`
and `readOnly` are neither taken over (the destination keeps its
member-initializer defaults) nor cleared on the source. -/
def moveCtor (s : OpenHashSetTC Key) : OpenHashSetTC Key × OpenHashSetTC Key :=
  ({ keys := s.keys, keySize := s.keySize, setFlags := s.setFlags,
     loadFactor := s.loadFactor, growthFactor := s.growthFactor,
     setSize := s.setSize },
   { s with keys := [], keySize := 0, setSize := 0 })

/-- The move assignment operator (source lines 215-234), returned as
`(destination, moved-from source)`: every field including `readOnly`, `fd`,
`memoryMapping` and `mappingSize` is transferred, and the source's `keys`,
`keySize`, `setSize`, `fd`, `memoryMapping` and `mappingSize` are reset
(`readOnly` is not).  The destination's previous resources are not freed. -/
def moveAssign (_t s : OpenHashSetTC Key) : OpenHashSetTC Key × OpenHashSetTC Key :=
  ({ keys := s.keys, keySize := s.keySize, setFlags := s.setFlags,
     loadFactor := s.loadFactor, growthFactor := s.growthFactor,
     setSize := s.setSize, readOnly := s.readOnly, fd := s.fd,
     memoryMapping := s.memoryMapping, mappingSize := s.mappingSize },
   { s with keys := [], keySize := 0, setSize := 0, fd := -1,
            memoryMapping := none, mappingSize := 0 })

/-! ## Basic lemmas about the Occupancy Index model and probe indices -/

theorem flagsAt_set_self {f : List BitPair} {i : Nat} (h : i < f.length) (x : BitPair) :
    flagsAt (f.set i x) i = x := by
  simp [flagsAt, List.getD, List.getElem?_set_self', h]

theorem flagsAt_set_ne {f : List BitPair} {i j : Nat} (h : i ≠ j) (x : BitPair) :
    flagsAt (f.set i x) j = flagsAt f j := by
  simp [flagsAt, List.getD, List.getElem?_set_ne h]

theorem flagsAt_of_ge {f : List BitPair} {i : Nat} (h : f.length ≤ i) :
    flagsAt f i = (false, false) := by
  simp [flagsAt, List.getD, List.getElem?_eq_none h]

theorem getD_set_self {l : List Key} {i : Nat} (h : i < l.length) (x d : Key) :
    (l.set i x).getD i d = x := by
  simp [List.getD, List.getElem?_set_self', h]

theorem getD_set_ne {l : List Key} {i j : Nat} (h : i ≠ j) (x d : Key) :
    (l.set i x).getD j d = l.getD j d := by
  simp [List.getD, List.getElem?_set_ne h]

/-- The number of occupied slots in a flag array. -/
def countLive (f : List BitPair) : Nat := f.countP (fun p => p.1)

theorem countLive_le_length (f : List BitPair) : countLive f ≤ f.length :=
  List.countP_le_length _

theorem flagsAt_cons_succ {p : BitPair} {rest : List BitPair} {m : Nat} :
    flagsAt (p :: rest) (m + 1) = flagsAt rest m := by
  simp [flagsAt, List.getD]

theorem countLive_set_true {f : List BitPair} {i : Nat} (h : i < f.length)
    (hold : (flagsAt f i).1 = false) :
    countLive (f.set i (true, true)) = countLive f + 1 := by
  induction f generalizing i with
  | nil => simp at h
  | cons p rest ih =>
    cases i with
    | zero =>
      have : p.1 = false := hold
      simp [countLive, List.countP_cons, this]
    | succ m =>
      have hm : m < rest.length := by simpa using h
      have ih' := ih hm (by rw [← flagsAt_cons_succ (p := p)]; exact hold)
      show countLive (p :: rest.set m (true, true)) = countLive (p :: rest) + 1
      simp only [countLive, List.countP_cons] at ih' ⊢
      omega

theorem countLive_unsetFirst {f : List BitPair} {i : Nat} (h : i < f.length)
    (hold : (flagsAt f i).1 = true) :
    countLive (unsetFirst f i) + 1 = countLive f := by
  unfold unsetFirst
  induction f generalizing i with
  | nil => simp at h
  | cons p rest ih =>
    cases i with
    | zero =>
      have : p.1 = true := hold
      simp [countLive, List.countP_cons, this]
    | succ m =>
      have hm : m < rest.length := by simpa using h
      have ih' := ih hm (by rw [← flagsAt_cons_succ (p := p)]; exact hold)
      have hsame : flagsAt (p :: rest) (m + 1) = flagsAt rest m := flagsAt_cons_succ
      show countLive (p :: rest.set m (false, (flagsAt (p :: rest) (m + 1)).2)) + 1 =
        countLive (p :: rest)
      rw [hsame]
      simp only [countLive, List.countP_cons] at ih' ⊢
      omega

theorem countLive_pos {f : List BitPair} {i : Nat} (h : i < f.length)
    (hset : (flagsAt f i).1 = true) : 0 < countLive f := by
  induction f generalizing i with
  | nil => simp at h
  | cons p rest ih =>
    cases i with
    | zero =>
      have : p.1 = true := hset
      simp [countLive, List.countP_cons, this]
    | succ m =>
      have hm : m < rest.length := by simpa using h
      have ih' := ih hm (by rw [← flagsAt_cons_succ (p := p)]; exact hset)
      simp only [countLive, List.countP_cons] at ih' ⊢
      omega

/-- If fewer than `length` slots are occupied, some slot is unoccupied. -/
theorem exists_unset_of_countLive_lt {f : List BitPair} (h : countLive f < f.length) :
    ∃ j, j < f.length ∧ (flagsAt f j).1 = false := by
  by_contra hc
  push_neg at hc
  have hall : ∀ p ∈ f, (fun q : BitPair => q.1) p = true := by
    intro p hp
    obtain ⟨j, hj, hjp⟩ := List.getElem_of_mem hp
    have hj' := hc j hj
    have hat : flagsAt f j = p := by
      simp [flagsAt, List.getD, List.getElem?_eq_getElem hj, hjp]
    rw [hat] at hj'
    simpa using hj'
  have hcl := List.countP_eq_length.mpr hall
  unfold countLive at h
  omega

theorem nextIdx_lt {n idx : Nat} (hidx : idx < n) : nextIdx n idx < n := by
  unfold nextIdx
  split <;> omega

theorem nextIdx_mod {n idx : Nat} (hidx : idx < n) : nextIdx n idx = (idx + 1) % n := by
  unfold nextIdx
  split
  · rename_i he
    rw [he, Nat.mod_self]
  · rw [Nat.mod_eq_of_lt (by omega)]

/-- Number of probe steps from home index `h` to slot `i` (both `< n`). -/
def probeDist (n h i : Nat) : Nat := (i + n - h) % n

theorem probeDist_lt {n : Nat} (hn : 0 < n) (h i : Nat) : probeDist n h i < n :=
  Nat.mod_lt _ hn

theorem add_probeDist {n h i : Nat} (hh : h < n) (hi : i < n) :
    (h + probeDist n h i) % n = i := by
  unfold probeDist
  rw [Nat.add_mod_mod]
  have he : h + (i + n - h) = i + n := by omega
  rw [he, Nat.add_mod_right, Nat.mod_eq_of_lt hi]

theorem mod_shift_inj {n h t₁ t₂ : Nat} (h₁ : t₁ < n) (h₂ : t₂ < n)
    (he : (h + t₁) % n = (h + t₂) % n) : t₁ = t₂ := by
  have hm : t₁ % n = t₂ % n := Nat.ModEq.add_left_cancel' h he
  rwa [Nat.mod_eq_of_lt h₁, Nat.mod_eq_of_lt h₂] at hm

theorem probeDist_add {n h s : Nat} (hh : h < n) (hs : s < n) :
    probeDist n h ((h + s) % n) = s := by
  have hn : 0 < n := by omega
  refine mod_shift_inj (h := h) (probeDist_lt hn h _) hs ?_
  rw [add_probeDist hh (Nat.mod_lt _ hn)]

/-! ## Correctness of the `contains` probe walk -/

/-- Key `k` occupies some live slot among the `n` slots. -/
def liveP (n : Nat) (keys : List Key) (flags : List BitPair) (k : Key) : Prop :=
  ∃ i, i < n ∧ isFirstSet flags i = true ∧ keys.getD i default = k

/-- Soundness: the `contains` walk only answers `true` on a live slot
holding the key. -/
theorem containsLoop_true_live {keys : List Key} {flags : List BitPair} {key : Key}
    {n : Nat} :
    ∀ fuel idx, idx < n → containsLoop keys flags key n idx fuel = true →
      liveP n keys flags key := by
  intro fuel
  induction fuel with
  | zero => intro idx _ ht; simp [containsLoop] at ht
  | succ m ih =>
    intro idx hidx ht
    simp only [containsLoop] at ht
    split at ht
    · split at ht
      · rename_i hc
        simp only [Bool.and_eq_true, decide_eq_true_eq] at hc
        exact ⟨idx, hidx, hc.1, hc.2⟩
      · split at ht
        · exact absurd ht (by simp)
        · exact ih (nextIdx n idx) (nextIdx_lt hidx) ht
    · exact absurd ht (by simp)

/-- Completeness, generalized over the remaining distance: if slot `i`
holds `key` live and the probe chain from `h` up to `i` is ever-occupied
with no slot retaining `key`, the walk started `t` steps in (with the
matching remaining fuel) answers `true`. -/
theorem containsLoop_reach_aux {keys : List Key} {flags : List BitPair} {key : Key}
    {n h i : Nat} (hh : h < n) (hi : i < n) (hset : isFirstSet flags i = true)
    (hkey : keys.getD i default = key)
    (hchain : ∀ t, t < probeDist n h i →
      (flagsAt flags ((h + t) % n)).2 = true ∧
      keys.getD ((h + t) % n) default ≠ key) :
    ∀ r t, t ≤ probeDist n h i → probeDist n h i - t = r →
      containsLoop keys flags key n ((h + t) % n) (n - t) = true := by
  have hn : 0 < n := by omega
  have hd : probeDist n h i < n := probeDist_lt hn h i
  intro r
  induction r with
  | zero =>
    intro t hle he
    have ht : t = probeDist n h i := by omega
    subst ht
    have hidx : (h + probeDist n h i) % n = i := add_probeDist hh hi
    have hfuel : n - probeDist n h i = (n - probeDist n h i - 1) + 1 := by omega
    rw [hidx, hfuel]
    have hset' : (flagsAt flags i).1 = true := hset
    have hkey2 : (keys[i]?).getD default = key := by
      rw [← List.getD_eq_getElem?_getD]; exact hkey
    simp [containsLoop, hset', hkey, hkey2]
  | succ r ih =>
    intro t hle he
    have htlt : t < probeDist n h i := by omega
    obtain ⟨hw, hne⟩ := hchain t htlt
    have hidx : (h + t) % n < n := Nat.mod_lt _ hn
    have hfuel : n - t = (n - t - 1) + 1 := by omega
    rw [hfuel]
    have hdec : decide (keys.getD ((h + t) % n) default = key) = false := by
      simp only [decide_eq_false_iff_not]; exact hne
    have hnext : nextIdx n ((h + t) % n) = (h + (t + 1)) % n := by
      rw [nextIdx_mod hidx, Nat.mod_add_mod]
      have : h + t + 1 = h + (t + 1) := by omega
      rw [this]
    have hrest : n - t - 1 = n - (t + 1) := by omega
    simp only [containsLoop, hw, Bool.or_true, if_true, hdec, Bool.and_false,
      Bool.false_eq_true, hnext, hrest]
    exact ih (t + 1) (by omega) (by omega)

/-- Completeness at the walk's entry point. -/
theorem containsLoop_reach {keys : List Key} {flags : List BitPair} {key : Key}
    {n h i : Nat} (hh : h < n) (hi : i < n) (hset : isFirstSet flags i = true)
    (hkey : keys.getD i default = key)
    (hchain : ∀ t, t < probeDist n h i →
      (flagsAt flags ((h + t) % n)).2 = true ∧
      keys.getD ((h + t) % n) default ≠ key) :
    containsLoop keys flags key n h n = true := by
  have h0 : (h + 0) % n = h := by rw [Nat.add_zero, Nat.mod_eq_of_lt hh]
  have := containsLoop_reach_aux hh hi hset hkey hchain (probeDist n h i) 0
    (by omega) (by omega)
  rwa [h0, Nat.sub_zero] at this

/-- Representation invariant of an open-addressing state with capacity `n`:
array lengths; `occupied → everOccupied`; live keys pairwise distinct; and
every live slot reachable from its key's home index along ever-occupied
slots none of which retains that key (soundness of the tombstone
shortcut). -/
def Rep (hashFn : Key → Nat) (n : Nat) (keys : List Key) (flags : List BitPair) : Prop :=
  keys.length = n ∧ flags.length = n ∧
  (∀ i, i < n → (flagsAt flags i).1 = true → (flagsAt flags i).2 = true) ∧
  (∀ i, i < n → ∀ j, j < n → (flagsAt flags i).1 = true → (flagsAt flags j).1 = true →
    keys.getD i default = keys.getD j default → i = j) ∧
  (∀ i, i < n → (flagsAt flags i).1 = true →
    ∀ t, t < probeDist n (hashFn (keys.getD i default) % n) i →
      (flagsAt flags ((hashFn (keys.getD i default) % n + t) % n)).2 = true ∧
      keys.getD ((hashFn (keys.getD i default) % n + t) % n) default ≠
        keys.getD i default)

/-- Under the representation invariant, `contains` decides exactly live
membership. -/
theorem contains_iff_live {T : OpenHashSetTC Key}
    (hRep : Rep hashFn T.keySize T.keys T.setFlags) (k : Key) :
    contains hashFn T k = true ↔ liveP T.keySize T.keys T.setFlags k := by
  obtain ⟨hlk, hlf, himp, hnd, hch⟩ := hRep
  unfold contains
  by_cases hz : T.keySize = 0
  · simp only [hz, if_true]
    constructor
    · intro hc; exact absurd hc (by simp)
    · rintro ⟨i, hi, -⟩; omega
  · simp only [hz, if_false]
    have hn : 0 < T.keySize := Nat.pos_of_ne_zero hz
    constructor
    · exact containsLoop_true_live T.keySize (hashFn k % T.keySize)
        (Nat.mod_lt _ hn)
    · rintro ⟨i, hi, hset, hkey⟩
      have hh : hashFn k % T.keySize < T.keySize := Nat.mod_lt _ hn
      have hchain := hch i hi hset
      rw [hkey] at hchain
      refine containsLoop_reach hh hi hset hkey ?_
      intro t ht
      exact hchain t ht

/-! ## Placing a new key at a valid target slot -/

/-- The target-slot condition shared by all insertion paths: `tgt` is a
non-occupied slot below `n` whose probe chain from `k`'s home index is
ever-occupied and never retains `k`. -/
def PlaceOK (hashFn : Key → Nat) (n : Nat) (keys : List Key) (flags : List BitPair)
    (k : Key) (tgt : Nat) : Prop :=
  tgt < n ∧ (flagsAt flags tgt).1 = false ∧
  (∀ v, v < probeDist n (hashFn k % n) tgt →
    (flagsAt flags ((hashFn k % n + v) % n)).2 = true ∧
    keys.getD ((hashFn k % n + v) % n) default ≠ k)

/-- Writing a not-currently-live key into a `PlaceOK` slot preserves the
representation invariant, adds exactly that key to the live set, and
increments the live count. -/
theorem Rep_place {n : Nat} {keys : List Key} {flags : List BitPair}
    (hRep : Rep hashFn n keys flags) {k : Key}
    (hnl : ¬ liveP n keys flags k) {tgt : Nat}
    (hOK : PlaceOK hashFn n keys flags k tgt) :
    Rep hashFn n (keys.set tgt k) (setBoth flags tgt) ∧
    (∀ k', liveP n (keys.set tgt k) (setBoth flags tgt) k' ↔
      (k' = k ∨ liveP n keys flags k')) ∧
    countLive (setBoth flags tgt) = countLive flags + 1 := by
  obtain ⟨hlk, hlf, himp, hnd, hch⟩ := hRep
  obtain ⟨htn, hunset, hkchain⟩ := hOK
  have htk : tgt < keys.length := by omega
  have htf : tgt < flags.length := by omega
  have hklive : ∀ j, j < n → (flagsAt flags j).1 = true →
      keys.getD j default ≠ k := by
    intro j hj hset he
    exact hnl ⟨j, hj, hset, he⟩
  refine ⟨⟨by simpa using hlk, by simpa [setBoth] using hlf, ?_, ?_, ?_⟩, ?_, ?_⟩
  · -- occupied → everOccupied
    intro i hi hset
    unfold setBoth at hset ⊢
    by_cases hti : tgt = i
    · rw [← hti, flagsAt_set_self htf]
    · rw [flagsAt_set_ne hti] at hset ⊢
      exact himp i hi hset
  · -- pairwise distinct live keys
    intro i hi j hj hseti hsetj hkeq
    unfold setBoth at hseti hsetj
    by_cases hti : tgt = i <;> by_cases htj : tgt = j
    · omega
    · exfalso
      rw [flagsAt_set_ne htj] at hsetj
      rw [← hti, getD_set_self htk] at hkeq
      rw [getD_set_ne htj] at hkeq
      exact hklive j hj hsetj hkeq.symm
    · exfalso
      rw [flagsAt_set_ne hti] at hseti
      rw [← htj, getD_set_self htk] at hkeq
      rw [getD_set_ne hti] at hkeq
      exact hklive i hi hseti hkeq
    · rw [flagsAt_set_ne hti] at hseti
      rw [flagsAt_set_ne htj] at hsetj
      rw [getD_set_ne hti, getD_set_ne htj] at hkeq
      exact hnd i hi j hj hseti hsetj hkeq
  · -- chain validity
    intro i hi hseti t ht
    by_cases hti : tgt = i
    · -- the newly placed slot
      subst hti
      rw [getD_set_self htk] at ht ⊢
      have hh : hashFn k % n < n := Nat.mod_lt _ (by omega)
      have hdlt : probeDist n (hashFn k % n) tgt < n := probeDist_lt (by omega) _ _
      have hne : (hashFn k % n + t) % n ≠ tgt := by
        intro he
        have h2 : (hashFn k % n + probeDist n (hashFn k % n) tgt) % n = tgt :=
          add_probeDist hh htn
        have heq := mod_shift_inj (h := hashFn k % n) (lt_trans ht hdlt) hdlt
          (he.trans h2.symm)
        omega
      constructor
      · unfold setBoth
        rw [flagsAt_set_ne (Ne.symm hne)]
        exact (hkchain t ht).1
      · rw [getD_set_ne (Ne.symm hne)]
        exact (hkchain t ht).2
    · -- a previously live slot
      have hki : (keys.set tgt k).getD i default = keys.getD i default :=
        getD_set_ne hti _ _
      rw [hki] at ht ⊢
      have hseti' : (flagsAt flags i).1 = true := by
        unfold setBoth at hseti
        rwa [flagsAt_set_ne hti] at hseti
      have hold := hch i hi hseti' t ht
      by_cases htp : tgt = (hashFn (keys.getD i default) % n + t) % n
      · constructor
        · unfold setBoth
          rw [← htp, flagsAt_set_self htf]
        · rw [← htp, getD_set_self htk]
          intro he
          exact hklive i hi hseti' he.symm
      · constructor
        · unfold setBoth
          rw [flagsAt_set_ne htp]
          exact hold.1
        · rw [getD_set_ne htp]
          exact hold.2
  · -- live-key set update
    intro k'
    constructor
    · rintro ⟨i, hi, hset, hkey⟩
      unfold isFirstSet setBoth at hset
      by_cases hti : tgt = i
      · left
        rw [← hti, getD_set_self htk] at hkey
        exact hkey.symm
      · right
        rw [flagsAt_set_ne hti] at hset
        rw [getD_set_ne hti] at hkey
        exact ⟨i, hi, hset, hkey⟩
    · rintro (rfl | ⟨i, hi, hset, hkey⟩)
      · refine ⟨tgt, htn, ?_, ?_⟩
        · unfold isFirstSet setBoth
          rw [flagsAt_set_self htf]
        · rw [getD_set_self htk]
      · have hti : tgt ≠ i := by
          intro he
          rw [← he] at hset
          unfold isFirstSet at hset
          rw [hset] at hunset
          simp at hunset
        refine ⟨i, hi, ?_, ?_⟩
        · unfold isFirstSet setBoth
          rw [flagsAt_set_ne hti]
          exact hset
        · rw [getD_set_ne hti]
          exact hkey
  · exact countLive_set_true htf hunset

/-! ## Characterizing the `insert` probe loop -/

/-- The loop's answer (`doesContain`) agrees with the `contains` walk: the
extra `firstUnsetIdx` bookkeeping does not influence control flow. -/
theorem insertLoop_fst {keys : List Key} {flags : List BitPair} {key : Key} {n : Nat} :
    ∀ fuel idx fu,
      (insertLoop keys flags key n idx fu fuel).1 = containsLoop keys flags key n idx fuel := by
  intro fuel
  induction fuel with
  | zero => intro idx fu; simp [insertLoop, containsLoop]
  | succ m ih =>
    intro idx fu
    simp only [insertLoop, containsLoop]
    split
    · split
      · rfl
      · split
        · rfl
        · exact ih (nextIdx n idx) _
    · rfl

/-- Invariant of the `firstUnsetIdx` bookkeeping after `t` steps from `h`:
`none` means every slot walked so far was occupied; `some j` means `j` is
the first walked non-occupied slot. -/
def FUinv (flags : List BitPair) (n h t : Nat) : Option Nat → Prop
  | none => ∀ u, u < t → (flagsAt flags ((h + u) % n)).1 = true
  | some j => ∃ u, u < t ∧ j = (h + u) % n ∧ (flagsAt flags j).1 = false ∧
      ∀ v, v < u → (flagsAt flags ((h + v) % n)).1 = true

/-- Exit analysis of the `insert` probe loop: when it reports that the key
is absent, the chosen target slot (`firstUnsetIdx` if any was recorded,
otherwise the exit index) is a non-occupied slot `s` steps along the chain
whose prefix is ever-occupied and free of the key — unless every slot of
the table is occupied (in which case the target may be occupied; `insert`
only takes that branch after a rehash, see below). -/
theorem insertLoop_target {keys : List Key} {flags : List BitPair} {key : Key}
    {n h : Nat} (hh : h < n)
    (hwf : ∀ i, i < n → (flagsAt flags i).1 = true → (flagsAt flags i).2 = true) :
    ∀ r t fu b idx' fu', n - t = r → t ≤ n →
      (∀ u, u < t → (flagsAt flags ((h + u) % n)).2 = true ∧
        keys.getD ((h + u) % n) default ≠ key) →
      FUinv flags n h t fu →
      insertLoop keys flags key n ((h + t) % n) fu (n - t) = (b, idx', fu') →
      b = true ∨
      (∃ s, s < n ∧ fu'.getD idx' = (h + s) % n ∧
        (flagsAt flags (fu'.getD idx')).1 = false ∧
        ∀ v, v < s → (flagsAt flags ((h + v) % n)).2 = true ∧
          keys.getD ((h + v) % n) default ≠ key) ∨
      (∀ u, u < n → (flagsAt flags ((h + u) % n)).1 = true) := by
  have hn : 0 < n := by omega
  intro r
  induction r with
  | zero =>
    intro t fu b idx' fu' hr ht hW hFU heq
    rw [hr] at heq
    simp only [insertLoop] at heq
    obtain ⟨hb, hidx, hfu⟩ : false = b ∧ (h + t) % n = idx' ∧ fu = fu' := by
      simpa [Prod.mk.injEq] using heq
    subst hb hidx hfu
    rcases fu with - | j
    · right; right
      intro u hu
      exact hFU u (by omega)
    · right; left
      obtain ⟨u, hu, hju, hjf, hpre⟩ := hFU
      refine ⟨u, by omega, ?_, ?_, ?_⟩
      · simpa using hju
      · simpa using hjf
      · intro v hv
        exact hW v (by omega)
  | succ r ih =>
    intro t fu b idx' fu' hr ht hW hFU heq
    have htlt : t < n := by omega
    have hidxlt : (h + t) % n < n := Nat.mod_lt _ hn
    have hfuel : n - t = (n - t - 1) + 1 := by omega
    rw [hfuel] at heq
    simp only [insertLoop] at heq
    by_cases hg : ((flagsAt flags ((h + t) % n)).1 || (flagsAt flags ((h + t) % n)).2) = true
    · rw [if_pos hg] at heq
      set fu2 := if fu.isNone && !(flagsAt flags ((h + t) % n)).1
        then some ((h + t) % n) else fu with hfu2
      have hFU2 : FUinv flags n h (t + 1) fu2 := by
        rw [hfu2]
        rcases fu with - | j
        · by_cases hset : (flagsAt flags ((h + t) % n)).1 = true
          · rw [if_neg (by simp [hset])]
            intro u hu
            rcases Nat.lt_succ_iff_lt_or_eq.mp hu with hu' | hu'
            · exact hFU u hu'
            · rw [hu']; exact hset
          · have hset' : (flagsAt flags ((h + t) % n)).1 = false := by
              simpa using hset
            rw [if_pos (by simp [hset'])]
            exact ⟨t, by omega, rfl, hset', fun v hv => hFU v hv⟩
        · rw [if_neg (by simp)]
          obtain ⟨u, hu, hju, hjf, hpre⟩ := hFU
          exact ⟨u, by omega, hju, hjf, hpre⟩
      by_cases hm1 : ((flagsAt flags ((h + t) % n)).1 &&
          decide (keys.getD ((h + t) % n) default = key)) = true
      · rw [if_pos hm1] at heq
        left
        obtain ⟨hb, -, -⟩ : true = b ∧ (h + t) % n = idx' ∧ fu2 = fu' := by
          simpa [Prod.mk.injEq] using heq
        exact hb.symm
      · rw [if_neg (by simpa using hm1)] at heq
        by_cases hm2 : ((flagsAt flags ((h + t) % n)).2 &&
            decide (keys.getD ((h + t) % n) default = key)) = true
        · -- tombstone holding the key: exit, key absent
          rw [if_pos hm2] at heq
          obtain ⟨hb, hidx, hfu⟩ : false = b ∧ (h + t) % n = idx' ∧ fu2 = fu' := by
            simpa [Prod.mk.injEq] using heq
          subst hb hidx hfu
          have hkeyeq : decide (keys.getD ((h + t) % n) default = key) = true := by
            simp only [Bool.and_eq_true] at hm2
            exact hm2.2
          have hset' : (flagsAt flags ((h + t) % n)).1 = false := by
            by_contra hc
            have h1 : (flagsAt flags ((h + t) % n)).1 = true := by simpa using hc
            exact hm1 (by rw [h1, hkeyeq]; rfl)
          right; left
          rw [hfu2]
          rcases fu with - | j
          · rw [if_pos (by simp [hset'])]
            simp only [Option.getD_some]
            exact ⟨t, by omega, rfl, hset', fun v hv => hW v hv⟩
          · rw [if_neg (by simp)]
            simp only [Option.getD_some]
            obtain ⟨u, hu, hju, hjf, hpre⟩ := hFU
            exact ⟨u, by omega, hju, hjf, fun v hv => hW v (by omega)⟩
        · -- walk on
          rw [if_neg (by simpa using hm2)] at heq
          have hg2 : (flagsAt flags ((h + t) % n)).1 = true ∨
              (flagsAt flags ((h + t) % n)).2 = true := by
            simpa [Bool.or_eq_true] using hg
          have hdec : decide (keys.getD ((h + t) % n) default = key) = false := by
            by_contra hc
            have hd : decide (keys.getD ((h + t) % n) default = key) = true := by
              simpa using hc
            rcases hg2 with h1 | h2
            · exact hm1 (by rw [h1, hd]; rfl)
            · exact hm2 (by rw [h2, hd]; rfl)
          have hW2 : ∀ u, u < t + 1 → (flagsAt flags ((h + u) % n)).2 = true ∧
              keys.getD ((h + u) % n) default ≠ key := by
            intro u hu
            rcases Nat.lt_succ_iff_lt_or_eq.mp hu with hu' | hu'
            · exact hW u hu'
            · rw [hu']
              constructor
              · rcases hg2 with h1 | h2
                · exact hwf _ hidxlt h1
                · exact h2
              · simpa using hdec
          have hnext : nextIdx n ((h + t) % n) = (h + (t + 1)) % n := by
            rw [nextIdx_mod hidxlt, Nat.mod_add_mod]
            have he : h + t + 1 = h + (t + 1) := by omega
            rw [he]
          have hrest : n - t - 1 = n - (t + 1) := by omega
          rw [hnext, hrest] at heq
          exact ih (t + 1) fu2 b idx' fu' (by omega) (by omega) hW2 hFU2 heq
    · -- both flags clear: exit on a genuinely unused slot
      rw [if_neg hg] at heq
      obtain ⟨hb, hidx, hfu⟩ : false = b ∧ (h + t) % n = idx' ∧ fu = fu' := by
        simpa [Prod.mk.injEq] using heq
      subst hb hidx hfu
      have hg' : (flagsAt flags ((h + t) % n)).1 = false ∧
          (flagsAt flags ((h + t) % n)).2 = false := by
        constructor
        · cases hx : (flagsAt flags ((h + t) % n)).1
          · rfl
          · exact absurd (by simp [hx]) hg
        · cases hx : (flagsAt flags ((h + t) % n)).2
          · rfl
          · exact absurd (by simp [hx]) hg
      rcases fu with - | j
      · right; left
        simp only [Option.getD_none]
        exact ⟨t, htlt, rfl, hg'.1, fun v hv => hW v hv⟩
      · right; left
        simp only [Option.getD_some]
        obtain ⟨u, hu, hju, hjf, hpre⟩ := hFU
        exact ⟨u, by omega, hju, hjf, fun v hv => hW v (by omega)⟩

/-! ## The `erase` probe walk -/

/-- When the key is not live, the `erase` walk never mutates anything:
every exit (unused slot, matching tombstone, full cycle) returns the flags
and count unchanged. -/
theorem eraseLoop_not_live {keys : List Key} {flags : List BitPair} {key : Key}
    {n s : Nat} (hnl : ¬ liveP n keys flags key) :
    ∀ fuel idx, idx < n → eraseLoop keys flags key n s idx fuel = (flags, s) := by
  intro fuel
  induction fuel with
  | zero => intro idx _; simp [eraseLoop]
  | succ m ih =>
    intro idx hidx
    simp only [eraseLoop]
    by_cases hg : ((flagsAt flags idx).1 || (flagsAt flags idx).2) = true
    · rw [if_pos hg]
      by_cases hk : decide (keys.getD idx default = key) = true
      · rw [if_pos hk]
        have hset : (flagsAt flags idx).1 = false := by
          by_contra hc
          have h1 : (flagsAt flags idx).1 = true := by simpa using hc
          exact hnl ⟨idx, hidx, h1, of_decide_eq_true hk⟩
        rw [if_neg (by simp [hset])]
      · rw [if_neg (by simpa using hk)]
        exact ih (nextIdx n idx) (nextIdx_lt hidx)
    · rw [if_neg hg]

/-- When the key is live at slot `i` with a valid chain, the `erase` walk
reaches `i`, tombstones it and decrements the count. -/
theorem eraseLoop_live_aux {keys : List Key} {flags : List BitPair} {key : Key}
    {n s h i : Nat} (hh : h < n) (hi : i < n)
    (hset : (flagsAt flags i).1 = true) (hkey : keys.getD i default = key)
    (hchain : ∀ t, t < probeDist n h i →
      (flagsAt flags ((h + t) % n)).2 = true ∧
      keys.getD ((h + t) % n) default ≠ key) :
    ∀ r t, t ≤ probeDist n h i → probeDist n h i - t = r →
      eraseLoop keys flags key n s ((h + t) % n) (n - t) =
        (unsetFirst flags i, decSizeT s) := by
  have hn : 0 < n := by omega
  have hd : probeDist n h i < n := probeDist_lt hn h i
  intro r
  induction r with
  | zero =>
    intro t hle he
    have ht : t = probeDist n h i := by omega
    subst ht
    have hidx : (h + probeDist n h i) % n = i := add_probeDist hh hi
    have hfuel : n - probeDist n h i = (n - probeDist n h i - 1) + 1 := by omega
    rw [hidx, hfuel]
    simp only [eraseLoop]
    rw [if_pos (by simp [hset]),
      if_pos (by simp only [decide_eq_true_eq]; exact hkey), if_pos hset]
  | succ r ih =>
    intro t hle he
    have htlt : t < probeDist n h i := by omega
    obtain ⟨hw, hne⟩ := hchain t htlt
    have hidx : (h + t) % n < n := Nat.mod_lt _ hn
    have hfuel : n - t = (n - t - 1) + 1 := by omega
    rw [hfuel]
    simp only [eraseLoop]
    rw [if_pos (by simp [hw]), if_neg (by simpa using hne)]
    have hnext : nextIdx n ((h + t) % n) = (h + (t + 1)) % n := by
      rw [nextIdx_mod hidx, Nat.mod_add_mod]
      have he2 : h + t + 1 = h + (t + 1) := by omega
      rw [he2]
    have hrest : n - t - 1 = n - (t + 1) := by omega
    rw [hnext, hrest]
    exact ih (t + 1) (by omega) (by omega)

/-! ## The free-slot walk -/

/-- `freeSlotLoop` finds the first non-occupied slot along the chain,
provided one exists within the remaining steps of the cycle. -/
theorem freeSlotLoop_spec {flags : List BitPair} {n h : Nat} (hh : h < n) :
    ∀ r t, n - t = r → t ≤ n →
      (∀ v, v < t → isFirstSet flags ((h + v) % n) = true) →
      (∃ u, t ≤ u ∧ u < n ∧ isFirstSet flags ((h + u) % n) = false) →
      ∃ s, t ≤ s ∧ s < n ∧
        freeSlotLoop flags n ((h + t) % n) (n - t) = (h + s) % n ∧
        isFirstSet flags ((h + s) % n) = false ∧
        ∀ v, v < s → isFirstSet flags ((h + v) % n) = true := by
  have hn : 0 < n := by omega
  intro r
  induction r with
  | zero =>
    intro t hr ht hpre hex
    obtain ⟨u, hu1, hu2, -⟩ := hex
    omega
  | succ r ih =>
    intro t hr ht hpre hex
    have htlt : t < n := by omega
    have hfuel : n - t = (n - t - 1) + 1 := by omega
    rw [hfuel]
    by_cases hx : isFirstSet flags ((h + t) % n) = true
    · -- occupied: walk on
      simp only [freeSlotLoop]
      rw [if_pos hx]
      have hnext : nextIdx n ((h + t) % n) = (h + (t + 1)) % n := by
        rw [nextIdx_mod (Nat.mod_lt _ hn), Nat.mod_add_mod]
        have he2 : h + t + 1 = h + (t + 1) := by omega
        rw [he2]
      have hrest : n - t - 1 = n - (t + 1) := by omega
      rw [hnext, hrest]
      have hpre2 : ∀ v, v < t + 1 → isFirstSet flags ((h + v) % n) = true := by
        intro v hv
        rcases Nat.lt_succ_iff_lt_or_eq.mp hv with hv' | hv'
        · exact hpre v hv'
        · rw [hv']; exact hx
      have hex2 : ∃ u, t + 1 ≤ u ∧ u < n ∧ isFirstSet flags ((h + u) % n) = false := by
        obtain ⟨u, hu1, hu2, hu3⟩ := hex
        refine ⟨u, ?_, hu2, hu3⟩
        rcases Nat.eq_or_lt_of_le hu1 with he | hlt
        · exfalso; rw [← he] at hu3; rw [hx] at hu3; simp at hu3
        · omega
      obtain ⟨s, hs1, hs2, hs3, hs4, hs5⟩ := ih (t + 1) (by omega) (by omega) hpre2 hex2
      exact ⟨s, by omega, hs2, hs3, hs4, hs5⟩
    · -- found a free slot
      have hx' : isFirstSet flags ((h + t) % n) = false := by simpa using hx
      simp only [freeSlotLoop]
      rw [if_neg (by simp [hx'])]
      exact ⟨t, le_refl t, htlt, rfl, hx', hpre⟩

/-! ## Rehash: reinsertion preserves the abstraction -/

/-- Occupied slots among the first `m` indices. -/
def countLiveBelow (flags : List BitPair) (m : Nat) : Nat :=
  (List.range m).countP (fun j => isFirstSet flags j)

theorem countLiveBelow_succ (flags : List BitPair) (m : Nat) :
    countLiveBelow flags (m + 1) =
      countLiveBelow flags m + (if isFirstSet flags m then 1 else 0) := by
  unfold countLiveBelow
  rw [List.range_succ, List.countP_append]
  simp [List.countP_cons]

theorem countLiveBelow_mono (flags : List BitPair) {m m' : Nat} (h : m ≤ m') :
    countLiveBelow flags m ≤ countLiveBelow flags m' := by
  induction m' with
  | zero =>
    have hm0 : m = 0 := by omega
    rw [hm0]
  | succ k ih =>
    rcases Nat.lt_succ_iff_lt_or_eq.mp (Nat.lt_succ_of_le h) with h' | h'
    · calc countLiveBelow flags m ≤ countLiveBelow flags k := ih (by omega)
        _ ≤ countLiveBelow flags (k + 1) := by rw [countLiveBelow_succ]; omega
    · rw [h']

theorem countLiveBelow_eq_countLive (flags : List BitPair) :
    countLiveBelow flags flags.length = countLive flags := by
  induction flags with
  | nil => rfl
  | cons p rest ih =>
    show countLiveBelow (p :: rest) (rest.length + 1) = countLive (p :: rest)
    unfold countLiveBelow
    rw [List.range_succ_eq_map, List.countP_cons, List.countP_map]
    have h1 : (List.range rest.length).countP
        ((fun j => isFirstSet (p :: rest) j) ∘ (fun i => i + 1)) =
        countLiveBelow rest rest.length := by
      unfold countLiveBelow
      apply List.countP_congr
      intro j hj
      simp only [Function.comp_apply]
      unfold isFirstSet
      rw [flagsAt_cons_succ]
    rw [h1, ih]
    unfold countLive isFirstSet
    rw [List.countP_cons]
    rfl

/-- The intermediate state of `rehash`'s reinsertion loop after `m` of the
old table's slots have been processed. -/
def rehashMid (oldKeys : List Key) (oldFlags : List BitPair) (newSize m : Nat) :
    List Key × List BitPair :=
  (List.range m).foldl (rehashStep hashFn oldKeys oldFlags newSize)
    (List.replicate newSize (default : Key),
     List.replicate newSize ((false, false) : BitPair))

theorem rehashMid_succ (oldKeys : List Key) (oldFlags : List BitPair)
    (newSize m : Nat) :
    rehashMid hashFn oldKeys oldFlags newSize (m + 1) =
      rehashStep hashFn oldKeys oldFlags newSize
        (rehashMid hashFn oldKeys oldFlags newSize m) m := by
  unfold rehashMid
  rw [List.range_succ, List.foldl_append, List.foldl_cons, List.foldl_nil]

theorem rehashWith_eq (T : OpenHashSetTC Key) (newSize : Nat) :
    rehashWith hashFn T newSize =
      { T with keys := (rehashMid hashFn T.keys T.setFlags newSize T.keySize).1,
               setFlags := (rehashMid hashFn T.keys T.setFlags newSize T.keySize).2,
               keySize := newSize } := rfl

theorem flagsAt_replicate_clear (n j : Nat) :
    flagsAt (List.replicate n ((false, false) : BitPair)) j = (false, false) := by
  rcases Nat.lt_or_ge j n with h | h
  · simp [flagsAt, List.getD, List.getElem?_replicate, h]
  · have hnone : (List.replicate n ((false, false) : BitPair))[j]? = none :=
      List.getElem?_eq_none (by simpa using h)
    simp [flagsAt, List.getD, hnone]

/-- The fold invariant of `rehash`'s reinsertion loop: after processing the
first `m` old slots the new arrays satisfy the representation invariant,
their live keys are exactly the old live keys with index below `m`, and the
live count equals the old live count below `m`. -/
theorem rehashMid_spec {oldKeys : List Key} {oldFlags : List BitPair} {oldN newSize : Nat}
    (hRep : Rep hashFn oldN oldKeys oldFlags) (hpos : 0 < newSize)
    (hle : countLiveBelow oldFlags oldN ≤ newSize) :
    ∀ m, m ≤ oldN →
      Rep hashFn newSize (rehashMid hashFn oldKeys oldFlags newSize m).1
        (rehashMid hashFn oldKeys oldFlags newSize m).2 ∧
      (∀ k', liveP newSize (rehashMid hashFn oldKeys oldFlags newSize m).1
          (rehashMid hashFn oldKeys oldFlags newSize m).2 k' ↔
        ∃ j, j < m ∧ (flagsAt oldFlags j).1 = true ∧ oldKeys.getD j default = k') ∧
      countLive (rehashMid hashFn oldKeys oldFlags newSize m).2 =
        countLiveBelow oldFlags m := by
  obtain ⟨holk, holf, himpo, hndo, hcho⟩ := hRep
  intro m
  induction m with
  | zero =>
    intro _h
    refine ⟨⟨by simp [rehashMid], by simp [rehashMid], ?_, ?_, ?_⟩, ?_, ?_⟩
    · intro i hi hset
      rw [show (rehashMid hashFn oldKeys oldFlags newSize 0).2 =
        List.replicate newSize ((false, false) : BitPair) from rfl,
        flagsAt_replicate_clear] at hset
      simp at hset
    · intro i hi j hj hseti hsetj
      rw [show (rehashMid hashFn oldKeys oldFlags newSize 0).2 =
        List.replicate newSize ((false, false) : BitPair) from rfl,
        flagsAt_replicate_clear] at hseti
      simp at hseti
    · intro i hi hset
      rw [show (rehashMid hashFn oldKeys oldFlags newSize 0).2 =
        List.replicate newSize ((false, false) : BitPair) from rfl,
        flagsAt_replicate_clear] at hset
      simp at hset
    · intro k'
      constructor
      · rintro ⟨i, hi, hset, -⟩
        unfold isFirstSet at hset
        rw [show (rehashMid hashFn oldKeys oldFlags newSize 0).2 =
          List.replicate newSize ((false, false) : BitPair) from rfl,
          flagsAt_replicate_clear] at hset
        simp at hset
      · rintro ⟨j, hj, -⟩
        omega
    · rw [show (rehashMid hashFn oldKeys oldFlags newSize 0).2 =
        List.replicate newSize ((false, false) : BitPair) from rfl]
      unfold countLiveBelow countLive
      rw [List.countP_eq_zero.mpr]
      · simp
      · intro p hp
        have := List.eq_of_mem_replicate hp
        rw [this]
        simp
  | succ m ih =>
    intro hm
    obtain ⟨hRepm, hlivem, hcountm⟩ := ih (by omega)
    rw [rehashMid_succ]
    by_cases hsl : isFirstSet oldFlags m = true
    · -- the processed old slot is live; place its key first-fit
      have hsl' : (flagsAt oldFlags m).1 = true := hsl
      set ks := (rehashMid hashFn oldKeys oldFlags newSize m).1 with hks
      set fs := (rehashMid hashFn oldKeys oldFlags newSize m).2 with hfs
      set k := oldKeys.getD m default with hk
      have hlf1 : fs.length = newSize := hRepm.2.1
      have himp1 := hRepm.2.2.1
      set hsh := hashFn k % newSize with hhsh
      have hhlt : hsh < newSize := Nat.mod_lt _ hpos
      -- the key of the live old slot `m` is not yet live in the mid state
      have hnl : ¬ liveP newSize ks fs k := by
        intro hl
        obtain ⟨j, hjm, hjset, hjkey⟩ := (hlivem k).mp hl
        have hjm' := hndo j (by omega) m (by omega) hjset hsl' (by rw [hjkey, hk])
        omega
      have hcnt : countLive fs < newSize := by
        have h1 : countLiveBelow oldFlags (m + 1) ≤ newSize :=
          le_trans (countLiveBelow_mono _ (by omega)) hle
        rw [countLiveBelow_succ, if_pos hsl] at h1
        omega
      have hex : ∃ u, 0 ≤ u ∧ u < newSize ∧
          isFirstSet fs ((hsh + u) % newSize) = false := by
        obtain ⟨j, hj, hjun⟩ :=
          exists_unset_of_countLive_lt (f := fs) (by omega)
        refine ⟨probeDist newSize hsh j, by omega, probeDist_lt hpos _ _, ?_⟩
        unfold isFirstSet
        rw [add_probeDist hhlt (by omega : j < newSize)]
        exact hjun
      obtain ⟨s, -, hs2, hs3, hs4, hs5⟩ := freeSlotLoop_spec
        (n := newSize) (h := hsh) hhlt newSize 0 (by omega) (by omega)
        (by intro v hv; omega) hex
      have h00 : (hsh + 0) % newSize = hsh := by
        rw [Nat.add_zero, Nat.mod_eq_of_lt hhlt]
      rw [h00, Nat.sub_zero] at hs3
      have htgt : (hsh + s) % newSize < newSize := Nat.mod_lt _ hpos
      have hOK : PlaceOK hashFn newSize ks fs k ((hsh + s) % newSize) := by
        refine ⟨htgt, hs4, ?_⟩
        intro v hv
        rw [probeDist_add hhlt hs2] at hv
        have hvset := hs5 v hv
        have hvlt : (hsh + v) % newSize < newSize := Nat.mod_lt _ hpos
        refine ⟨himp1 _ hvlt hvset, ?_⟩
        intro he
        exact hnl ⟨(hsh + v) % newSize, hvlt, hvset, he⟩
      obtain ⟨hRepNew, hliveNew, hcountNew⟩ := Rep_place hashFn hRepm hnl hOK
      have hstep : rehashStep hashFn oldKeys oldFlags newSize
          (rehashMid hashFn oldKeys oldFlags newSize m) m =
          (ks.set ((hsh + s) % newSize) k, setBoth fs ((hsh + s) % newSize)) := by
        unfold rehashStep
        rw [if_pos hsl]
        show (ks.set (freeSlotLoop fs newSize (hashFn k % newSize) newSize) k,
          setBoth fs (freeSlotLoop fs newSize (hashFn k % newSize) newSize)) = _
        rw [← hhsh, hs3]
      rw [hstep]
      refine ⟨hRepNew, ?_, ?_⟩
      · intro k'
        refine Iff.trans (hliveNew k') ?_
        constructor
        · rintro (rfl | hmid)
          · exact ⟨m, by omega, hsl', hk.symm⟩
          · obtain ⟨j, hj, hjs, hjk⟩ := (hlivem k').mp hmid
            exact ⟨j, by omega, hjs, hjk⟩
        · rintro ⟨j, hj, hjs, hjk⟩
          rcases Nat.lt_succ_iff_lt_or_eq.mp hj with h' | h'
          · exact Or.inr ((hlivem k').mpr ⟨j, h', hjs, hjk⟩)
          · left
            rw [← hjk, h', hk]
      · show countLive (setBoth fs ((hsh + s) % newSize)) =
          countLiveBelow oldFlags (m + 1)
        rw [hcountNew, hcountm, countLiveBelow_succ, if_pos hsl]
    · have hstep0 : rehashStep hashFn oldKeys oldFlags newSize
          (rehashMid hashFn oldKeys oldFlags newSize m) m =
          rehashMid hashFn oldKeys oldFlags newSize m := by
        unfold rehashStep
        rw [if_neg (by simpa using hsl)]
      rw [hstep0]
      refine ⟨hRepm, ?_, ?_⟩
      · intro k'
        rw [hlivem k']
        constructor
        · rintro ⟨j, hj, hjs, hjk⟩
          exact ⟨j, by omega, hjs, hjk⟩
        · rintro ⟨j, hj, hjs, hjk⟩
          refine ⟨j, ?_, hjs, hjk⟩
          rcases Nat.lt_succ_iff_lt_or_eq.mp hj with h' | h'
          · exact h'
          · exfalso
            rw [h'] at hjs
            unfold isFirstSet at hsl
            rw [hjs] at hsl
            simp at hsl
      · rw [hcountm, countLiveBelow_succ, if_neg (by simpa using hsl)]
        omega

/-! ## The table invariant and the operation-level specifications -/

/-- Invariant of every owned table reachable through the public interface:
the representation invariant, `setSize` = number of occupied slots, and the
untouched constructor defaults (`loadFactor = 0.8`, `growthFactor = 1.2`,
not read-only). -/
def Inv (T : OpenHashSetTC Key) : Prop :=
  Rep hashFn T.keySize T.keys T.setFlags ∧
  T.setSize = countLive T.setFlags ∧
  T.loadFactor = 4/5 ∧ T.growthFactor = 6/5 ∧ T.readOnly = false

theorem bool_eq_of_iff {a b : Bool} (h : a = true ↔ b = true) : a = b := by
  cases a <;> cases b <;> simp_all

/-- If every slot along a full cycle is occupied, every slot below `n` is
occupied. -/
theorem all_occupied_of_cycle {flags : List BitPair} {n h : Nat} (hh : h < n)
    (hall : ∀ u, u < n → (flagsAt flags ((h + u) % n)).1 = true) :
    ∀ j, j < n → (flagsAt flags j).1 = true := by
  intro j hj
  have hu := hall (probeDist n h j) (probeDist_lt (by omega) h j)
  rwa [add_probeDist hh hj] at hu

/-- `rehashWith` (the body of `rehash` once the new size is fixed)
preserves the representation invariant, the live-key set and the live
count, for any new size at least the current live count. -/
theorem rehashWith_spec {T : OpenHashSetTC Key} {newSize : Nat}
    (hRep : Rep hashFn T.keySize T.keys T.setFlags)
    (hle : countLive T.setFlags ≤ newSize) (hpos : 0 < newSize) :
    Rep hashFn newSize (rehashWith hashFn T newSize).keys
      (rehashWith hashFn T newSize).setFlags ∧
    (∀ k', liveP newSize (rehashWith hashFn T newSize).keys
        (rehashWith hashFn T newSize).setFlags k' ↔
      liveP T.keySize T.keys T.setFlags k') ∧
    countLive (rehashWith hashFn T newSize).setFlags = countLive T.setFlags := by
  have hlb : countLiveBelow T.setFlags T.keySize ≤ newSize := by
    rw [show T.keySize = T.setFlags.length from hRep.2.1.symm,
      countLiveBelow_eq_countLive]
    exact hle
  obtain ⟨hRepN, hliveN, hcountN⟩ :=
    rehashMid_spec hashFn hRep hpos hlb T.keySize (le_refl _)
  refine ⟨hRepN, ?_, ?_⟩
  · intro k'
    refine Iff.trans (hliveN k') ?_
    constructor
    · rintro ⟨j, hj, hjs, hjk⟩
      exact ⟨j, hj, hjs, hjk⟩
    · rintro ⟨j, hj, hjs, hjk⟩
      exact ⟨j, hj, hjs, hjk⟩
  · show countLive (rehashMid hashFn T.keys T.setFlags newSize T.keySize).2 =
      countLive T.setFlags
    rw [hcountN, show T.keySize = T.setFlags.length from hRep.2.1.symm,
      countLiveBelow_eq_countLive]

/-- `rehashWith` on an invariant-satisfying table: the invariant, the
`contains` function and `size` are preserved, and the capacity becomes the
requested slot count. -/
theorem rehashWith_inv {T : OpenHashSetTC Key} (hInv : Inv hashFn T) {ns : Nat}
    (hcle : countLive T.setFlags ≤ ns) (hpos : 0 < ns) :
    Inv hashFn (rehashWith hashFn T ns) ∧
    (∀ k', contains hashFn (rehashWith hashFn T ns) k' = contains hashFn T k') ∧
    (rehashWith hashFn T ns).setSize = T.setSize ∧
    (rehashWith hashFn T ns).keySize = ns := by
  obtain ⟨hRep, hsize, hlf, hgf, hro⟩ := hInv
  obtain ⟨hRepN, hliveN, hcountN⟩ := rehashWith_spec hashFn hRep hcle hpos
  have hRepN' : Rep hashFn (rehashWith hashFn T ns).keySize
      (rehashWith hashFn T ns).keys (rehashWith hashFn T ns).setFlags := hRepN
  have hInvN : Inv hashFn (rehashWith hashFn T ns) := by
    refine ⟨hRepN', ?_, hlf, hgf, hro⟩
    show T.setSize = countLive (rehashWith hashFn T ns).setFlags
    rw [hsize, hcountN]
  refine ⟨hInvN, ?_, rfl, rfl⟩
  intro k'
  apply bool_eq_of_iff
  exact Iff.trans (contains_iff_live hashFn hRepN' k')
    (Iff.trans (hliveN k') (contains_iff_live hashFn hRep k').symm)

/-- Specification of `rehash` on an invariant-satisfying table: the result
satisfies the invariant, `contains` and `size` are preserved, and the new
capacity is as the source computes it in each branch (`size/loadFactor`
truncated for an achievable positive target, a no-op for a positive target
below the live count, the growth formula for `size == 0`). -/
theorem rehash_spec {T : OpenHashSetTC Key} (hInv : Inv hashFn T) (size : Nat) :
    Inv hashFn (rehash hashFn T size) ∧
    (∀ k', contains hashFn (rehash hashFn T size) k' = contains hashFn T k') ∧
    (rehash hashFn T size).setSize = T.setSize ∧
    (0 < size → T.setSize ≤ size →
      (rehash hashFn T size).keySize = Nat.floor ((size : ℚ) / T.loadFactor)) ∧
    (0 < size → size < T.setSize → rehash hashFn T size = T) ∧
    (size = 0 → (rehash hashFn T size).keySize =
      max (T.keySize + 1) (Nat.floor ((max 1 T.keySize : ℚ) * T.growthFactor))) := by
  have hsize := hInv.2.1
  have hlf := hInv.2.2.1
  have hcl : countLive T.setFlags ≤ T.keySize := by
    rw [← hInv.1.2.1]; exact countLive_le_length _
  by_cases hz : 0 < size
  · by_cases hlt : size < T.setSize
    · -- positive target below the live count: no-op
      have heq : rehash hashFn T size = T := by
        unfold rehash
        rw [if_pos hz, if_pos hlt]
      rw [heq]
      exact ⟨hInv, fun k' => rfl, rfl, fun h1 h2 => by omega,
        fun h1 h2 => rfl, fun h0 => by omega⟩
    · -- achievable positive target
      set newSize := Nat.floor ((size : ℚ) / T.loadFactor) with hns
      have hsizele : size ≤ newSize := by
        rw [hns, hlf]
        refine Nat.le_floor ?_
        have he : (size : ℚ) / (4/5) = (size : ℚ) * (5/4) := by ring
        rw [he]
        have hnn : (0 : ℚ) ≤ (size : ℚ) := by positivity
        nlinarith
      have hposN : 0 < newSize := by omega
      have hcle : countLive T.setFlags ≤ newSize := by omega
      have heq : rehash hashFn T size = rehashWith hashFn T newSize := by
        unfold rehash
        rw [if_pos hz, if_neg (by omega)]
      obtain ⟨hInvN, hcont, hss, hks⟩ := rehashWith_inv hashFn hInv hcle hposN
      rw [heq]
      exact ⟨hInvN, hcont, hss, fun h1 h2 => hks, fun h1 h2 => by omega,
        fun h0 => by omega⟩
  · -- size == 0: untargeted growth
    have hz0 : size = 0 := by omega
    set newSize := max (T.keySize + 1)
      (Nat.floor ((max 1 T.keySize : ℚ) * T.growthFactor)) with hns
    have hposN : 0 < newSize := by
      have := le_max_left (T.keySize + 1)
        (Nat.floor ((max 1 T.keySize : ℚ) * T.growthFactor))
      omega
    have hcle : countLive T.setFlags ≤ newSize := by
      have := le_max_left (T.keySize + 1)
        (Nat.floor ((max 1 T.keySize : ℚ) * T.growthFactor))
      omega
    have heq : rehash hashFn T size = rehashWith hashFn T newSize := by
      unfold rehash
      rw [if_neg hz]
    obtain ⟨hInvN, hcont, hss, hks⟩ := rehashWith_inv hashFn hInv hcle hposN
    rw [heq]
    exact ⟨hInvN, hcont, hss, fun h1 h2 => by omega, fun h1 h2 => by omega,
      fun h0 => hks⟩

theorem not_live_of_contains_false {T : OpenHashSetTC Key} {k : Key}
    (hRep : Rep hashFn T.keySize T.keys T.setFlags)
    (hc : contains hashFn T k = false) :
    ¬ liveP T.keySize T.keys T.setFlags k := by
  intro hl
  rw [(contains_iff_live hashFn hRep k).mpr hl] at hc
  simp at hc

/-- Writing a not-yet-live key into a `PlaceOK` slot and bumping the count:
table-level version of `Rep_place`. -/
theorem place_table {T : OpenHashSetTC Key} (hInv : Inv hashFn T) {k : Key}
    (hnl : ¬ liveP T.keySize T.keys T.setFlags k) {tgt : Nat}
    (hOK : PlaceOK hashFn T.keySize T.keys T.setFlags k tgt) :
    Inv hashFn { T with
      keys := T.keys.set tgt k
      setFlags := setBoth T.setFlags tgt
      setSize := T.setSize + 1 } ∧
    (∀ k', contains hashFn { T with
        keys := T.keys.set tgt k
        setFlags := setBoth T.setFlags tgt
        setSize := T.setSize + 1 } k' =
      (decide (k' = k) || contains hashFn T k')) := by
  obtain ⟨hRep, hsize, hlf, hgf, hro⟩ := hInv
  obtain ⟨hRepN, hliveN, hcountN⟩ := Rep_place hashFn hRep hnl hOK
  have hRepN' : Rep hashFn
      ({ T with
        keys := T.keys.set tgt k
        setFlags := setBoth T.setFlags tgt
        setSize := T.setSize + 1 } : OpenHashSetTC Key).keySize
      ({ T with
        keys := T.keys.set tgt k
        setFlags := setBoth T.setFlags tgt
        setSize := T.setSize + 1 } : OpenHashSetTC Key).keys
      ({ T with
        keys := T.keys.set tgt k
        setFlags := setBoth T.setFlags tgt
        setSize := T.setSize + 1 } : OpenHashSetTC Key).setFlags := hRepN
  refine ⟨⟨hRepN', ?_, hlf, hgf, hro⟩, ?_⟩
  · show T.setSize + 1 = countLive (setBoth T.setFlags tgt)
    rw [hcountN, hsize]
  · intro k'
    apply bool_eq_of_iff
    rw [contains_iff_live hashFn hRepN' k']
    have h2 := hliveN k'
    constructor
    · intro hl
      rcases h2.mp hl with h3 | h3
      · simp [h3]
      · rw [(contains_iff_live hashFn hRep k').mpr h3]
        simp
    · intro hr
      rcases (by simpa [Bool.or_eq_true, decide_eq_true_eq] using hr :
          k' = k ∨ contains hashFn T k' = true) with h3 | h3
      · exact h2.mpr (Or.inl h3)
      · exact h2.mpr (Or.inr ((contains_iff_live hashFn hRep k').mp h3))

/-- Specification of the pure insertion body: the invariant is preserved,
membership gains exactly the inserted key, and `setSize` grows by one
exactly when the key was absent. -/
theorem insertImpl_spec {T : OpenHashSetTC Key} (hInv : Inv hashFn T) (k : Key) :
    Inv hashFn (insertImpl hashFn T k) ∧
    (∀ k', contains hashFn (insertImpl hashFn T k) k' =
      (decide (k' = k) || contains hashFn T k')) ∧
    (insertImpl hashFn T k).setSize =
      (if contains hashFn T k then T.setSize else T.setSize + 1) := by
  have hRep := hInv.1
  have hsize := hInv.2.1
  have hlf := hInv.2.2.1
  have hcl : countLive T.setFlags ≤ T.keySize := by
    rw [← hRep.2.1]; exact countLive_le_length _
  by_cases hc : contains hashFn T k = true
  · -- the key is already present: no-op
    have hp0 : 0 < T.keySize := by
      by_contra hp
      have hz : T.keySize = 0 := by omega
      unfold contains at hc
      rw [if_pos hz] at hc
      simp at hc
    have hc2 : containsLoop T.keys T.setFlags k T.keySize
        (hashFn k % T.keySize) T.keySize = true := by
      unfold contains at hc
      rwa [if_neg (by omega)] at hc
    have heqA : insertImpl hashFn T k = T := by
      simp only [insertImpl]
      rw [if_pos hp0, insertLoop_fst, hc2, if_pos rfl]
    rw [heqA]
    refine ⟨hInv, ?_, ?_⟩
    · intro k'
      apply bool_eq_of_iff
      simp only [Bool.or_eq_true, decide_eq_true_eq]
      constructor
      · intro h1; exact Or.inr h1
      · rintro (rfl | h1)
        · exact hc
        · exact h1
    · rw [if_pos hc]
  · -- the key is absent
    have hcf : contains hashFn T k = false := by simpa using hc
    have hnl : ¬ liveP T.keySize T.keys T.setFlags k :=
      not_live_of_contains_false hashFn hRep hcf
    have hb : (if 0 < T.keySize then
        insertLoop T.keys T.setFlags k T.keySize (hashFn k % T.keySize) none T.keySize
      else ((false, 0, none) : Bool × Nat × Option Nat)).1 = false := by
      by_cases hp0 : 0 < T.keySize
      · rw [if_pos hp0, insertLoop_fst]
        unfold contains at hcf
        rwa [if_neg (by omega)] at hcf
      · rw [if_neg hp0]
    by_cases hLT : (T.setSize : ℚ) ≥ (T.keySize : ℚ) * T.loadFactor
    · -- load-factor bound reached (or the table is empty): rehash, then place
      set T' := rehash hashFn T 0 with hT'
      obtain ⟨hInv', hcont', hss', -, -, hks'⟩ := rehash_spec hashFn hInv 0
      rw [← hT'] at hInv' hcont' hss' hks'
      have hksge : T.keySize + 1 ≤ T'.keySize := by
        rw [hks' rfl]
        exact le_max_left _ _
      have hcnt' : countLive T'.setFlags < T'.keySize := by
        have h1 : T'.setSize = countLive T'.setFlags := hInv'.2.1
        omega
      have hp0' : 0 < T'.keySize := by omega
      have hh' : hashFn k % T'.keySize < T'.keySize := Nat.mod_lt _ hp0'
      have hlen' : T'.setFlags.length = T'.keySize := hInv'.1.2.1
      have hex : ∃ u, 0 ≤ u ∧ u < T'.keySize ∧
          isFirstSet T'.setFlags ((hashFn k % T'.keySize + u) % T'.keySize) = false := by
        obtain ⟨j, hj, hjun⟩ := exists_unset_of_countLive_lt (f := T'.setFlags) (by omega)
        refine ⟨probeDist T'.keySize (hashFn k % T'.keySize) j, by omega,
          probeDist_lt hp0' _ _, ?_⟩
        unfold isFirstSet
        rw [add_probeDist hh' (by omega : j < T'.keySize)]
        exact hjun
      obtain ⟨s, -, hs2, hs3, hs4, hs5⟩ := freeSlotLoop_spec
        (n := T'.keySize) (h := hashFn k % T'.keySize) hh' T'.keySize 0 (by omega)
        (by omega) (by intro v hv; omega) hex
      have h00 : (hashFn k % T'.keySize + 0) % T'.keySize = hashFn k % T'.keySize := by
        rw [Nat.add_zero, Nat.mod_eq_of_lt hh']
      rw [h00, Nat.sub_zero] at hs3
      have hnl' : ¬ liveP T'.keySize T'.keys T'.setFlags k := by
        refine not_live_of_contains_false hashFn hInv'.1 ?_
        rw [hcont' k]
        exact hcf
      have hOK' : PlaceOK hashFn T'.keySize T'.keys T'.setFlags k
          ((hashFn k % T'.keySize + s) % T'.keySize) := by
        refine ⟨Nat.mod_lt _ hp0', hs4, ?_⟩
        intro v hv
        rw [probeDist_add hh' hs2] at hv
        have hvset := hs5 v hv
        have hvlt : (hashFn k % T'.keySize + v) % T'.keySize < T'.keySize :=
          Nat.mod_lt _ hp0'
        refine ⟨hInv'.1.2.2.1 _ hvlt hvset, ?_⟩
        intro he
        exact hnl' ⟨_, hvlt, hvset, he⟩
      obtain ⟨hInvF, hcontF⟩ := place_table hashFn hInv' hnl' hOK'
      have heqB : insertImpl hashFn T k =
          { T' with
            keys := T'.keys.set ((hashFn k % T'.keySize + s) % T'.keySize) k
            setFlags := setBoth T'.setFlags ((hashFn k % T'.keySize + s) % T'.keySize)
            setSize := T'.setSize + 1 } := by
        simp only [insertImpl]
        rw [hb, if_neg Bool.false_ne_true, if_pos hLT, ← hT', hs3]
      rw [heqB]
      refine ⟨hInvF, ?_, ?_⟩
      · intro k'
        rw [hcontF k', hcont' k']
      · show T'.setSize + 1 = _
        rw [if_neg hc, hss']
    · -- below the load-factor bound: place at the probe loop's target
      have hp0 : 0 < T.keySize := by
        by_contra hp
        have hz : T.keySize = 0 := by omega
        apply hLT
        rw [hz]
        simp
      have hh : hashFn k % T.keySize < T.keySize := Nat.mod_lt _ hp0
      have hlt : countLive T.setFlags < T.keySize := by
        have h1 : (T.setSize : ℚ) < (T.keySize : ℚ) * T.loadFactor := by
          exact lt_of_not_ge hLT
        rw [hlf] at h1
        have h2 : (T.keySize : ℚ) * (4/5) ≤ (T.keySize : ℚ) := by
          have : (0 : ℚ) ≤ (T.keySize : ℚ) := by positivity
          nlinarith
        have h3 : (T.setSize : ℚ) < (T.keySize : ℚ) := lt_of_lt_of_le h1 h2
        have h4 : T.setSize < T.keySize := by exact_mod_cast h3
        omega
      set pr := insertLoop T.keys T.setFlags k T.keySize
        (hashFn k % T.keySize) none T.keySize with hpr
      have hbp : pr.1 = false := by
        rw [hpr, insertLoop_fst]
        unfold contains at hcf
        rwa [if_neg (by omega)] at hcf
      have h00 : (hashFn k % T.keySize + 0) % T.keySize = hashFn k % T.keySize := by
        rw [Nat.add_zero, Nat.mod_eq_of_lt hh]
      have heq0 : insertLoop T.keys T.setFlags k T.keySize
          ((hashFn k % T.keySize + 0) % T.keySize) none (T.keySize - 0) =
          (pr.1, pr.2.1, pr.2.2) := by
        rw [h00, Nat.sub_zero]
      have hlenf := hRep.2.1
      have htgt := insertLoop_target hh hRep.2.2.1 T.keySize 0 none pr.1 pr.2.1 pr.2.2
        (by omega) (by omega) (by intro u hu; omega) (by intro u hu; omega) heq0
      rcases htgt with hT | hT | hT
      · rw [hbp] at hT
        simp at hT
      · -- a valid target slot along the chain
        obtain ⟨s, hs1, hs2, hs3, hs4⟩ := hT
        have hOK : PlaceOK hashFn T.keySize T.keys T.setFlags k
            (pr.2.2.getD pr.2.1) := by
          refine ⟨?_, hs3, ?_⟩
          · rw [hs2]; exact Nat.mod_lt _ hp0
          · intro v hv
            rw [hs2, probeDist_add hh hs1] at hv
            exact hs4 v hv
        obtain ⟨hInvF, hcontF⟩ := place_table hashFn hInv hnl hOK
        have heqC : insertImpl hashFn T k =
            { T with
              keys := T.keys.set (pr.2.2.getD pr.2.1) k
              setFlags := setBoth T.setFlags (pr.2.2.getD pr.2.1)
              setSize := T.setSize + 1 } := by
          simp only [insertImpl]
          rw [if_pos hp0, ← hpr, hbp, if_neg Bool.false_ne_true, if_neg hLT]
        rw [heqC]
        refine ⟨hInvF, hcontF, ?_⟩
        show T.setSize + 1 = _
        rw [if_neg hc]
      · -- every slot occupied: impossible below the load-factor bound
        exfalso
        obtain ⟨j, hj, hjun⟩ := exists_unset_of_countLive_lt (f := T.setFlags)
          (by rw [hlenf]; exact hlt)
        have hocc := all_occupied_of_cycle hh hT j (by omega)
        rw [hocc] at hjun
        simp at hjun

/-- Tombstoning a live slot preserves the representation invariant and
removes exactly that slot's key from the live set. -/
theorem Rep_unset {n : Nat} {keys : List Key} {flags : List BitPair}
    (hRep : Rep hashFn n keys flags) {i : Nat} (hi : i < n)
    (hset : (flagsAt flags i).1 = true) :
    Rep hashFn n keys (unsetFirst flags i) ∧
    (∀ k', liveP n keys (unsetFirst flags i) k' ↔
      (liveP n keys flags k' ∧ k' ≠ keys.getD i default)) := by
  obtain ⟨hlk, hlf, himp, hnd, hch⟩ := hRep
  have hif : i < flags.length := by omega
  have hsnd : ∀ j, (flagsAt (unsetFirst flags i) j).2 = (flagsAt flags j).2 := by
    intro j
    unfold unsetFirst
    by_cases hij : i = j
    · rw [← hij, flagsAt_set_self hif]
    · rw [flagsAt_set_ne hij]
  have hfst : ∀ j, (flagsAt (unsetFirst flags i) j).1 =
      if i = j then false else (flagsAt flags j).1 := by
    intro j
    unfold unsetFirst
    by_cases hij : i = j
    · rw [← hij, flagsAt_set_self hif, if_pos rfl]
    · rw [flagsAt_set_ne hij, if_neg hij]
  have hlive : ∀ j, j < n → (flagsAt (unsetFirst flags i) j).1 = true →
      j ≠ i ∧ (flagsAt flags j).1 = true := by
    intro j hj hsj
    rw [hfst] at hsj
    by_cases hij : i = j
    · rw [if_pos hij] at hsj; simp at hsj
    · rw [if_neg hij] at hsj
      exact ⟨fun he => hij he.symm, hsj⟩
  refine ⟨⟨hlk, by simpa [unsetFirst] using hlf, ?_, ?_, ?_⟩, ?_⟩
  · intro j hj hsj
    obtain ⟨-, hsj'⟩ := hlive j hj hsj
    rw [hsnd]
    exact himp j hj hsj'
  · intro a ha b hb hsa hsb hkeq
    obtain ⟨-, hsa'⟩ := hlive a ha hsa
    obtain ⟨-, hsb'⟩ := hlive b hb hsb
    exact hnd a ha b hb hsa' hsb' hkeq
  · intro m hm hsm t ht
    obtain ⟨-, hsm'⟩ := hlive m hm hsm
    obtain ⟨h2, hne⟩ := hch m hm hsm' t ht
    rw [hsnd]
    exact ⟨h2, hne⟩
  · intro k'
    constructor
    · rintro ⟨m, hm, hsm, hkm⟩
      obtain ⟨hmi, hsm'⟩ := hlive m hm hsm
      refine ⟨⟨m, hm, hsm', hkm⟩, ?_⟩
      intro he
      exact hmi (hnd m hm i hi hsm' hset (by rw [hkm, he]))
    · rintro ⟨⟨m, hm, hsm, hkm⟩, hne⟩
      have hmi : m ≠ i := by
        intro he
        rw [he] at hkm
        exact hne hkm.symm
      refine ⟨m, hm, ?_, hkm⟩
      show (flagsAt (unsetFirst flags i) m).1 = true
      rw [hfst, if_neg (fun he => hmi he.symm)]
      exact hsm

/-- Specification of `erase` on an invariant-satisfying owned table with
positive capacity (the `keySize == 0` case divides by zero, see `erase`). -/
theorem erase_spec {T : OpenHashSetTC Key} (hInv : Inv hashFn T) (k : Key)
    (hn : 0 < T.keySize) :
    ∃ T', erase hashFn T k = .ok T' ∧ Inv hashFn T' ∧
      (∀ k', contains hashFn T' k' = (!decide (k' = k) && contains hashFn T k')) ∧
      (T'.setSize = if contains hashFn T k then T.setSize - 1 else T.setSize) ∧
      (contains hashFn T k = false → T' = T) ∧
      T'.keySize = T.keySize ∧ T'.keys = T.keys := by
  obtain ⟨hRep, hsize, hlf, hgf, hro⟩ := hInv
  have hlenf := hRep.2.1
  have hh : hashFn k % T.keySize < T.keySize := Nat.mod_lt _ hn
  have heraseq : erase hashFn T k = .ok { T with
      setFlags := (eraseLoop T.keys T.setFlags k T.keySize T.setSize
        (hashFn k % T.keySize) T.keySize).1
      setSize := (eraseLoop T.keys T.setFlags k T.keySize T.setSize
        (hashFn k % T.keySize) T.keySize).2 } := by
    unfold erase
    rw [if_neg (by simp [hro]), if_neg (by omega)]
  by_cases hc : contains hashFn T k = true
  · -- the key is live: locate and tombstone it
    obtain ⟨i, hi, hseti, hkeyi⟩ := (contains_iff_live hashFn hRep k).mp hc
    have hchain : ∀ t, t < probeDist T.keySize (hashFn k % T.keySize) i →
        (flagsAt T.setFlags ((hashFn k % T.keySize + t) % T.keySize)).2 = true ∧
        T.keys.getD ((hashFn k % T.keySize + t) % T.keySize) default ≠ k := by
      have hch := hRep.2.2.2.2 i hi hseti
      rw [hkeyi] at hch
      exact hch
    have h00 : (hashFn k % T.keySize + 0) % T.keySize = hashFn k % T.keySize := by
      rw [Nat.add_zero, Nat.mod_eq_of_lt hh]
    have hr := eraseLoop_live_aux (s := T.setSize) hh hi hseti hkeyi hchain
      (probeDist T.keySize (hashFn k % T.keySize) i) 0 (by omega) (by omega)
    rw [h00, Nat.sub_zero] at hr
    have hpos : 0 < T.setSize := by
      rw [hsize]
      exact countLive_pos (by omega) hseti
    have hdec : decSizeT T.setSize = T.setSize - 1 := by
      unfold decSizeT
      rw [if_neg (by omega)]
    have heraseq2 : erase hashFn T k = .ok { T with
        setFlags := unsetFirst T.setFlags i
        setSize := T.setSize - 1 } := by
      rw [heraseq, hr, hdec]
    obtain ⟨hRepU, hliveU⟩ := Rep_unset hashFn hRep hi hseti
    have hcu := countLive_unsetFirst (f := T.setFlags) (by omega) hseti
    have hRepU' : Rep hashFn
        ({ T with
          setFlags := unsetFirst T.setFlags i
          setSize := T.setSize - 1 } : OpenHashSetTC Key).keySize
        ({ T with
          setFlags := unsetFirst T.setFlags i
          setSize := T.setSize - 1 } : OpenHashSetTC Key).keys
        ({ T with
          setFlags := unsetFirst T.setFlags i
          setSize := T.setSize - 1 } : OpenHashSetTC Key).setFlags := hRepU
    refine ⟨_, heraseq2, ⟨hRepU', ?_, hlf, hgf, hro⟩, ?_, ?_, ?_, rfl, rfl⟩
    · show T.setSize - 1 = countLive (unsetFirst T.setFlags i)
      rw [hsize] at hpos ⊢
      omega
    · intro k'
      apply bool_eq_of_iff
      rw [contains_iff_live hashFn hRepU' k']
      have h1 := hliveU k'
      constructor
      · intro hl
        obtain ⟨h2, h3⟩ := h1.mp hl
        rw [hkeyi] at h3
        simp only [Bool.and_eq_true, Bool.not_eq_eq_eq_not, Bool.not_true,
          decide_eq_false_iff_not]
        exact ⟨h3, (contains_iff_live hashFn hRep k').mpr h2⟩
      · intro hrr
        simp only [Bool.and_eq_true, Bool.not_eq_eq_eq_not, Bool.not_true,
          decide_eq_false_iff_not] at hrr
        refine h1.mpr ⟨(contains_iff_live hashFn hRep k').mp hrr.2, ?_⟩
        rw [hkeyi]
        exact hrr.1
    · show T.setSize - 1 = _
      rw [if_pos hc]
    · intro hcf
      rw [hcf] at hc
      simp at hc
  · -- the key is absent: the walk is a no-op
    have hcf : contains hashFn T k = false := by simpa using hc
    have hnl : ¬ liveP T.keySize T.keys T.setFlags k :=
      not_live_of_contains_false hashFn hRep hcf
    have hr := eraseLoop_not_live (s := T.setSize) hnl T.keySize
      (hashFn k % T.keySize) hh
    have heraseq2 : erase hashFn T k = .ok T := by
      rw [heraseq, hr]
    refine ⟨T, heraseq2, ⟨hRep, hsize, hlf, hgf, hro⟩, ?_, ?_, fun _ => rfl, rfl, rfl⟩
    · intro k'
      apply bool_eq_of_iff
      simp only [Bool.and_eq_true, Bool.not_eq_eq_eq_not, Bool.not_true,
        decide_eq_false_iff_not]
      constructor
      · intro h1
        refine ⟨?_, h1⟩
        intro he
        rw [he] at h1
        rw [h1] at hcf
        simp at hcf
      · intro h1
        exact h1.2
    · rw [if_neg hc]

/-! ## clear, emptiness, reachability -/

theorem flagsAt_clearFlags (f : List BitPair) (i : Nat) :
    flagsAt (clearFlags f) i = (false, false) := by
  unfold clearFlags flagsAt
  rcases Nat.lt_or_ge i f.length with h | h
  · simp [List.getD, List.getElem?_map, List.getElem?_eq_getElem h]
  · have hnone : (f.map (fun _ => ((false : Bool), (false : Bool))))[i]? = none :=
      List.getElem?_eq_none (by simpa using h)
    simp [List.getD, hnone]

/-- After `BitPairSet::clear`, every `contains` walk answers `false`. -/
theorem containsLoop_clear (keys : List Key) (f : List BitPair) (key : Key)
    (n idx fuel : Nat) :
    containsLoop keys (clearFlags f) key n idx fuel = false := by
  cases fuel with
  | zero => rfl
  | succ m =>
    simp [containsLoop, flagsAt_clearFlags]

theorem countLive_clearFlags (f : List BitPair) : countLive (clearFlags f) = 0 := by
  unfold countLive clearFlags
  rw [List.countP_eq_zero]
  intro p hp
  obtain ⟨q, -, hq⟩ := List.mem_map.mp hp
  rw [← hq]
  simp

/-- Specification of `clear` on a non-read-only table. -/
theorem clear_spec {T : OpenHashSetTC Key} (hro : T.readOnly = false) :
    clear T = .ok { T with setFlags := clearFlags T.setFlags, setSize := 0 } ∧
    (∀ k', contains hashFn
      { T with setFlags := clearFlags T.setFlags, setSize := 0 } k' = false) ∧
    (Inv hashFn T → Inv hashFn
      { T with setFlags := clearFlags T.setFlags, setSize := 0 }) := by
  refine ⟨?_, ?_, ?_⟩
  · unfold clear
    rw [if_neg (by simp [hro])]
  · intro k'
    unfold contains
    by_cases hz : T.keySize = 0
    · rw [if_pos hz]
    · rw [if_neg hz]
      exact containsLoop_clear T.keys T.setFlags k' T.keySize _ _
  · rintro ⟨hRep, hsize, hlf, hgf, -⟩
    refine ⟨⟨hRep.1, ?_, ?_, ?_, ?_⟩, ?_, hlf, hgf, hro⟩
    · show (clearFlags T.setFlags).length = T.keySize
      unfold clearFlags
      rw [List.length_map]
      exact hRep.2.1
    · intro i hi hset
      rw [flagsAt_clearFlags] at hset
      simp at hset
    · intro i hi j hj hseti hsetj
      rw [flagsAt_clearFlags] at hseti
      simp at hseti
    · intro i hi hset
      rw [flagsAt_clearFlags] at hset
      simp at hset
    · show (0 : Nat) = countLive (clearFlags T.setFlags)
      rw [countLive_clearFlags]

theorem Inv_empty : Inv hashFn (emptySet : OpenHashSetTC Key) := by
  have hz : (emptySet : OpenHashSetTC Key).keySize = 0 := rfl
  refine ⟨⟨rfl, rfl, ?_, ?_, ?_⟩, rfl, rfl, rfl, rfl⟩ <;>
    (intro i hi; rw [hz] at hi; omega)

/-- The owned tables reachable from the default constructor through the
mutating interface (`insert`, `erase`, `reserve`, `clear`). -/
inductive Reachable (hashFn : Key → Nat) : OpenHashSetTC Key → Prop where
  | init : Reachable hashFn emptySet
  | insert_step {T T' : OpenHashSetTC Key} {k : Key} :
      Reachable hashFn T → insert hashFn T k = .ok T' → Reachable hashFn T'
  | erase_step {T T' : OpenHashSetTC Key} {k : Key} :
      Reachable hashFn T → erase hashFn T k = .ok T' → Reachable hashFn T'
  | reserve_step {T T' : OpenHashSetTC Key} {m : Nat} :
      Reachable hashFn T → reserve hashFn T m = .ok T' → Reachable hashFn T'
  | clear_step {T T' : OpenHashSetTC Key} :
      Reachable hashFn T → clear T = .ok T' → Reachable hashFn T'

/-- Every reachable table satisfies the invariant. -/
theorem Inv_of_reachable {T : OpenHashSetTC Key} (h : Reachable hashFn T) :
    Inv hashFn T := by
  induction h with
  | init => exact Inv_empty hashFn
  | @insert_step T T' k hR heq ih =>
    unfold insert at heq
    rw [if_neg (by simp [ih.2.2.2.2])] at heq
    obtain rfl := Except.ok.inj heq
    exact (insertImpl_spec hashFn ih _).1
  | @erase_step T T' k hR heq ih =>
    by_cases hz : 0 < T.keySize
    · obtain ⟨T2, heq2, hInv2, -, -, -, -, -⟩ := erase_spec hashFn ih k hz
      rw [heq2] at heq
      obtain rfl := Except.ok.inj heq
      exact hInv2
    · exfalso
      unfold erase at heq
      rw [if_neg (by simp [ih.2.2.2.2]), if_pos (by omega)] at heq
      cases heq
  | @reserve_step T T' m hR heq ih =>
    unfold reserve at heq
    rw [if_neg (by simp [ih.2.2.2.2])] at heq
    obtain rfl := Except.ok.inj heq
    exact (rehash_spec hashFn ih _).1
  | @clear_step T T' hR heq ih =>
    obtain ⟨hceq, -, hcinv⟩ := clear_spec hashFn ih.2.2.2.2
    rw [hceq] at heq
    obtain rfl := Except.ok.inj heq
    exact hcinv ih

/-! ## Sequences of insert/erase operations -/

/-- One mutating operation of the claim's sequences. -/
inductive Op (Key : Type) where
  | ins (k : Key)
  | del (k : Key)
deriving DecidableEq

/-- Run one operation on a table. -/
def applyOp (T : OpenHashSetTC Key) : Op Key → Except GradyError (OpenHashSetTC Key)
  | .ins k => insert hashFn T k
  | .del k => erase hashFn T k

/-- Run a sequence of operations left to right, propagating errors. -/
def applyOps (T : OpenHashSetTC Key) :
    List (Op Key) → Except GradyError (OpenHashSetTC Key)
  | [] => .ok T
  | op :: rest =>
    match applyOp hashFn T op with
    | .ok T₁ => applyOps T₁ rest
    | .error e => .error e

/-- The net effect of a sequence of operations on the membership of key
`k`, starting from membership `b`: the last `ins k`/`del k` wins; other
keys' operations are irrelevant. -/
def netLive (k : Key) (ops : List (Op Key)) (b : Bool) : Bool :=
  ops.foldl (fun acc op =>
    match op with
    | .ins k' => if k' = k then true else acc
    | .del k' => if k' = k then false else acc) b

theorem netLive_nil (k : Key) (b : Bool) : netLive k [] b = b := rfl

theorem netLive_cons_ins (k q : Key) (rest : List (Op Key)) (b : Bool) :
    netLive k (Op.ins q :: rest) b = netLive k rest (if q = k then true else b) := rfl

theorem netLive_cons_del (k q : Key) (rest : List (Op Key)) (b : Bool) :
    netLive k (Op.del q :: rest) b = netLive k rest (if q = k then false else b) := rfl

/-- After any successfully executed sequence of inserts and erases,
`contains` reports exactly the net effect of the sequence. -/
theorem applyOps_net {T : OpenHashSetTC Key} (hInv : Inv hashFn T) :
    ∀ ops T', applyOps hashFn T ops = .ok T' →
      Inv hashFn T' ∧
      ∀ k, contains hashFn T' k = netLive k ops (contains hashFn T k) := by
  intro ops
  induction ops generalizing T with
  | nil =>
    intro T' heq
    obtain rfl := Except.ok.inj heq
    exact ⟨hInv, fun k => rfl⟩
  | cons op rest ih =>
    intro T' heq
    match op with
    | .ins k =>
      have hop : applyOp hashFn T (.ins k) = .ok (insertImpl hashFn T k) := by
        show insert hashFn T k = _
        unfold insert
        rw [if_neg (by simp [hInv.2.2.2.2])]
      rw [applyOps, hop] at heq
      obtain ⟨hInv1, hcont1, -⟩ := insertImpl_spec hashFn hInv k
      obtain ⟨hInv', hcont'⟩ := ih hInv1 T' heq
      refine ⟨hInv', ?_⟩
      intro k'
      rw [hcont' k', netLive_cons_ins, hcont1 k']
      by_cases he : k = k'
      · rw [if_pos he, he]
        simp
      · rw [if_neg he]
        have : decide (k' = k) = false := by
          simp only [decide_eq_false_iff_not]
          exact fun h2 => he h2.symm
        rw [this]
        simp
    | .del k =>
      by_cases hz : 0 < T.keySize
      · obtain ⟨T2, heq2, hInv2, hcont2, -, -, -, -⟩ :=
          erase_spec hashFn hInv k hz
        have hop : applyOp hashFn T (.del k) = .ok T2 := heq2
        rw [applyOps, hop] at heq
        obtain ⟨hInv', hcont'⟩ := ih hInv2 T' heq
        refine ⟨hInv', ?_⟩
        intro k'
        rw [hcont' k', netLive_cons_del, hcont2 k']
        by_cases he : k = k'
        · rw [if_pos he, he]
          simp
        · rw [if_neg he]
          have : decide (k' = k) = false := by
            simp only [decide_eq_false_iff_not]
            exact fun h2 => he h2.symm
          rw [this]
          simp
      · exfalso
        have hop : applyOp hashFn T (.del k) = .error .ModuloByZero := by
          show erase hashFn T k = _
          unfold erase
          rw [if_neg (by simp [hInv.2.2.2.2]), if_pos (by omega)]
        rw [applyOps, hop] at heq
        cases heq

/-! ## Serialization: the on-disk codec (§4.3) -/

/-- Little-endian byte encoding of a machine word of `w` bytes (host-native
order on the little-endian hosts this models; the source performs raw
`ofs.write((char*)&x, 8)`). -/
def encLE : Nat → Nat → List Nat
  | 0, _ => []
  | w + 1, n => (n % 256) :: encLE w (n / 256)

/-- Little-endian byte decoding. -/
def decLE : List Nat → Nat
  | [] => 0
  | b :: rest => b + 256 * decLE rest

/-- Read an 8-byte word of the file at byte offset `off`. -/
def word64 (file : List Nat) (off : Nat) : Nat := decLE ((file.drop off).take 8)

/-- The two-bit encoding of one Occupancy Index slot.
Modelled from the spec (§4.1, §4.3): bit 0 = `occupied`, bit 1 =
`everOccupied`; the spec fixes two bits per slot in 4-byte packed words but
not the bit order, which is chosen here. -/
def pairVal (p : BitPair) : Nat := (cond p.1 1 0) + 2 * (cond p.2 1 0)

def decodePair (v : Nat) : BitPair := (decide (v % 2 = 1), decide (v / 2 % 2 = 1))

/-- Pack up to 16 slots into one 32-bit word, slot `j` at bit `2*j`. -/
def packChunk (c : List BitPair) : Nat :=
  c.foldr (fun p acc => pairVal p + 4 * acc) 0

/-- Split a flag array into chunks of 16 slots (the last may be short);
structural recursion on an explicit length bound. -/
def chunk16Go : Nat → List BitPair → List (List BitPair)
  | 0, _ => []
  | f + 1, l => if l = [] then [] else l.take 16 :: chunk16Go f (l.drop 16)

/-- Split a flag array into chunks of 16 slots (the last may be short). -/
def chunk16 (l : List BitPair) : List (List BitPair) :=
  chunk16Go l.length l

theorem chunk16Go_congr : ∀ (f g : Nat) (l : List BitPair),
    l.length ≤ f → l.length ≤ g → chunk16Go f l = chunk16Go g l := by
  intro f
  induction f with
  | zero =>
    intro g l hf _hg
    have hnil : l = [] := List.length_eq_zero.mp (by omega)
    subst hnil
    cases g with
    | zero => rfl
    | succ g => rfl
  | succ f ih =>
    intro g l hf hg
    by_cases hl : l = []
    · subst hl
      cases g with
      | zero => rfl
      | succ g => rfl
    · have hpos : 0 < l.length := List.length_pos.mpr hl
      cases g with
      | zero => omega
      | succ g =>
        show (if l = [] then [] else l.take 16 :: chunk16Go f (l.drop 16)) =
          (if l = [] then [] else l.take 16 :: chunk16Go g (l.drop 16))
        rw [if_neg hl, if_neg hl]
        have hd : (l.drop 16).length = l.length - 16 := List.length_drop 16 l
        rw [ih g (l.drop 16) (by omega) (by omega)]

/-- One-step unfolding of `chunk16`. -/
theorem chunk16_eq (l : List BitPair) :
    chunk16 l = if l = [] then [] else l.take 16 :: chunk16 (l.drop 16) := by
  by_cases hl : l = []
  · subst hl
    rfl
  · rw [if_neg hl]
    show chunk16Go l.length l = _
    cases hlen : l.length with
    | zero => exact absurd (List.length_eq_zero.mp hlen) hl
    | succ n =>
      show (if l = [] then [] else l.take 16 :: chunk16Go n (l.drop 16)) = _
      rw [if_neg hl]
      have hd : (l.drop 16).length = l.length - 16 := List.length_drop 16 l
      rw [chunk16Go_congr n (l.drop 16).length (l.drop 16) (by omega) le_rfl]
      rfl

/-- Unpack `count` slots from a packed word. -/
def unpackWord : Nat → Nat → List BitPair
  | 0, _ => []
  | t + 1, w => decodePair (w % 4) :: unpackWord t (w / 4)

/-- Modelled from the spec: `BitPairSet::write` (§4.3) — the Occupancy
Index section `[8B logical slot count][8B packed-word array length]
[4B * word count]`.  `BitPairSet.hpp` is not under `src/`. -/
def bpsWrite (flags : List BitPair) : List Nat :=
  encLE 8 flags.length ++ encLE 8 (chunk16 flags).length ++
    (chunk16 flags).flatMap (fun c => encLE 4 (packChunk c))

/-- Modelled from the spec: the `BitPairSet(void*)` constructor decoding
the Occupancy Index section in place from mapped bytes. -/
def bpsDecode (bytes : List Nat) : List BitPair :=
  ((List.range (word64 bytes 8)).flatMap
    (fun j => unpackWord 16 (decLE ((bytes.drop (16 + 4 * j)).take 4)))).take
    (word64 bytes 0)

variable (sizeofKey : Nat) (keyBytes : Key → List Nat) (keyDec : List Nat → Key)
variable (doubleBytes : ℚ → List Nat) (doubleDec : List Nat → ℚ)

/-- The byte stream produced by `OpenHashSetTC::write` (source lines
418-442): five 8-byte header fields (`setSize`, `keySize`, `loadFactor`,
`growthFactor`, Occupancy Index offset), the raw key array, zero padding to
an 8-byte boundary, then the Occupancy Index section.  `keyBytes` stands
for the raw `memcpy` bytes of a trivially copyable `Key`; `doubleBytes` for
the raw bytes of a `double`. -/
def writeBytes (T : OpenHashSetTC Key) : List Nat :=
  let keyArraySize := sizeofKey * T.keySize
  let padLength := if keyArraySize % 8 = 0 then 0 else 8 - keyArraySize % 8
  let bitPairSetOffset := 40 + keyArraySize + padLength
  encLE 8 T.setSize ++ (encLE 8 T.keySize ++ (doubleBytes T.loadFactor ++
    (doubleBytes T.growthFactor ++ (encLE 8 bitPairSetOffset ++
    (T.keys.flatMap keyBytes ++ (List.replicate padLength 0 ++
    bpsWrite T.setFlags))))))

/-- `OpenHashSetTC::write` as the callers see it.  Note: unlike `insert`,
`erase`, `reserve` and `clear`, `write` performs NO read-only check
(source lines 418-442), so it succeeds on a Mapped instance too; failure
to create the destination file is environmental and not modelled. -/
def write (T : OpenHashSetTC Key) : Except GradyError (List Nat) :=
  .ok (writeBytes sizeofKey keyBytes doubleBytes T)

/-- The memory-mapping constructor `OpenHashSetTC(std::string)` (source
lines 148-176) applied to an already successfully mapped byte region:
reads the five header fields, views the key array at offset 40, decodes
the Occupancy Index at the stored offset, and marks the table read-only.
The constructor performs no validation of the mapped bytes.  (`open` or
`mmap` failures raise IOError/MappingError before this point and are not
part of the byte-level model.) -/
def openMapped (file : List Nat) : OpenHashSetTC Key :=
  let setSize := word64 file 0
  let keySize := word64 file 8
  let lf := doubleDec ((file.drop 16).take 8)
  let gf := doubleDec ((file.drop 24).take 8)
  let off := word64 file 32
  { keys := (List.range keySize).map
      (fun i => keyDec ((file.drop (40 + sizeofKey * i)).take sizeofKey)),
    setFlags := bpsDecode (file.drop off),
    loadFactor := lf, growthFactor := gf, keySize := keySize, setSize := setSize,
    fd := 0, mappingSize := file.length, memoryMapping := some 0, readOnly := true }

/-! ## Round-trip lemmas for the codec -/

theorem encLE_length (w n : Nat) : (encLE w n).length = w := by
  induction w generalizing n with
  | zero => rfl
  | succ v ih => simp [encLE, ih]

theorem mod_mul_decomp (n M : Nat) (hM : 0 < M) :
    n % (256 * M) = n % 256 + 256 * (n / 256 % M) := by
  have h1 : 256 * M * (n / 256 / M) + (256 * (n / 256 % M) + n % 256) = n := by
    have e1 := Nat.div_add_mod n 256
    have e2 := Nat.div_add_mod (n / 256) M
    calc 256 * M * (n / 256 / M) + (256 * (n / 256 % M) + n % 256)
        = 256 * (M * (n / 256 / M) + n / 256 % M) + n % 256 := by ring
      _ = 256 * (n / 256) + n % 256 := by rw [e2]
      _ = n := e1
  have hb1 : n % 256 < 256 := Nat.mod_lt _ (by omega)
  have hb2 : n / 256 % M < M := Nat.mod_lt _ hM
  have h2 : 256 * (n / 256 % M) + n % 256 < 256 * M := by omega
  calc n % (256 * M)
      = (256 * M * (n / 256 / M) + (256 * (n / 256 % M) + n % 256)) % (256 * M) := by
        rw [h1]
    _ = (256 * (n / 256 % M) + n % 256) % (256 * M) := by
        rw [Nat.mul_add_mod]
    _ = 256 * (n / 256 % M) + n % 256 := Nat.mod_eq_of_lt h2
    _ = n % 256 + 256 * (n / 256 % M) := by omega

theorem decLE_encLE (w n : Nat) : decLE (encLE w n) = n % 256 ^ w := by
  induction w generalizing n with
  | zero =>
    show (0 : Nat) = n % 256 ^ 0
    rw [pow_zero]
    omega
  | succ v ih =>
    show n % 256 + 256 * decLE (encLE v (n / 256)) = n % 256 ^ (v + 1)
    rw [ih]
    have hp : (256 : Nat) ^ (v + 1) = 256 * 256 ^ v := by
      rw [pow_succ]; ring
    rw [hp, mod_mul_decomp n (256 ^ v) (by positivity)]

theorem decLE_encLE_eq (w n : Nat) (h : n < 256 ^ w) : decLE (encLE w n) = n := by
  rw [decLE_encLE, Nat.mod_eq_of_lt h]

theorem pairVal_lt (p : BitPair) : pairVal p < 4 := by
  obtain ⟨a, b⟩ := p
  cases a <;> cases b <;> decide

theorem decodePair_pairVal (p : BitPair) : decodePair (pairVal p) = p := by
  obtain ⟨a, b⟩ := p
  cases a <;> cases b <;> decide

theorem packChunk_lt (c : List BitPair) : packChunk c < 4 ^ c.length := by
  induction c with
  | nil => decide
  | cons p rest ih =>
    show pairVal p + 4 * packChunk rest < 4 ^ (rest.length + 1)
    have h1 := pairVal_lt p
    have h2 : (4 : Nat) ^ (rest.length + 1) = 4 * 4 ^ rest.length := by
      rw [pow_succ]; ring
    omega

theorem unpackWord_zero (m : Nat) : unpackWord m 0 = List.replicate m (false, false) := by
  induction m with
  | zero => rfl
  | succ v ih =>
    show decodePair (0 % 4) :: unpackWord v (0 / 4) = _
    rw [show (0 : Nat) % 4 = 0 from rfl, show (0 : Nat) / 4 = 0 from rfl, ih]
    rfl

theorem unpackWord_packChunk (c : List BitPair) :
    ∀ m, c.length ≤ m →
      unpackWord m (packChunk c) = c ++ List.replicate (m - c.length) (false, false) := by
  induction c with
  | nil =>
    intro m hm
    simp [packChunk, unpackWord_zero]
  | cons p rest ih =>
    intro m hm
    obtain ⟨v, rfl⟩ : ∃ v, m = v + 1 := by
      cases m with
      | zero => simp at hm
      | succ v => exact ⟨v, rfl⟩
    have hp4 := pairVal_lt p
    have hmod : (pairVal p + 4 * packChunk rest) % 4 = pairVal p := by
      rw [Nat.add_mul_mod_self_left, Nat.mod_eq_of_lt hp4]
    have hdiv : (pairVal p + 4 * packChunk rest) / 4 = packChunk rest := by
      rw [Nat.add_mul_div_left _ _ (by omega), Nat.div_eq_of_lt hp4]
      omega
    show decodePair ((pairVal p + 4 * packChunk rest) % 4) ::
      unpackWord v ((pairVal p + 4 * packChunk rest) / 4) = _
    rw [hmod, hdiv, decodePair_pairVal, ih v (by simpa using hm)]
    have hlen : (p :: rest).length = rest.length + 1 := rfl
    rw [hlen]
    have : v + 1 - (rest.length + 1) = v - rest.length := by omega
    rw [this]
    rfl

theorem chunk16_mem_len_aux : ∀ (n : Nat) (l : List BitPair), l.length ≤ n →
    ∀ c ∈ chunk16 l, c.length ≤ 16 := by
  intro n
  induction n with
  | zero =>
    intro l hn c hc
    have hnil : l = [] := List.length_eq_zero.mp (by omega)
    subst hnil
    rw [chunk16_eq] at hc
    simp at hc
  | succ n ih =>
    intro l hn c hc
    rw [chunk16_eq] at hc
    by_cases hl : l = []
    · rw [if_pos hl] at hc
      simp at hc
    · rw [if_neg hl] at hc
      rcases List.mem_cons.mp hc with h | h
      · rw [h, List.length_take]
        omega
      · exact ih (l.drop 16) (by rw [List.length_drop]; omega) c h

theorem chunk16_mem_len : ∀ (l : List BitPair), ∀ c ∈ chunk16 l, c.length ≤ 16 :=
  fun l => chunk16_mem_len_aux l.length l le_rfl

theorem chunk16_length_le_aux : ∀ (n : Nat) (l : List BitPair), l.length ≤ n →
    (chunk16 l).length ≤ l.length := by
  intro n
  induction n with
  | zero =>
    intro l hn
    have hnil : l = [] := List.length_eq_zero.mp (by omega)
    subst hnil
    rw [chunk16_eq]
    simp
  | succ n ih =>
    intro l hn
    rw [chunk16_eq]
    by_cases hl : l = []
    · rw [if_pos hl, hl]
      simp
    · rw [if_neg hl]
      have hpos : 0 < l.length := List.length_pos.mpr hl
      have hd : (l.drop 16).length = l.length - 16 := List.length_drop 16 l
      have hrec := ih (l.drop 16) (by omega)
      simp only [List.length_cons]
      omega

theorem chunk16_length_le (l : List BitPair) : (chunk16 l).length ≤ l.length :=
  chunk16_length_le_aux l.length l le_rfl

theorem chunk16_flat_aux : ∀ (n : Nat) (l : List BitPair), l.length ≤ n →
    ((chunk16 l).flatMap (fun c => unpackWord 16 (packChunk c))).take l.length = l := by
  intro n
  induction n with
  | zero =>
    intro l hn
    have hnil : l = [] := List.length_eq_zero.mp (by omega)
    subst hnil
    rw [chunk16_eq]
    simp
  | succ n ih =>
    intro l hn
    by_cases hl : l = []
    · subst hl
      rw [chunk16_eq]
      simp
    · rw [chunk16_eq, if_neg hl, List.flatMap_cons]
      rcases le_or_lt l.length 16 with hle | hlt
      · have hdrop : l.drop 16 = [] := List.drop_eq_nil_of_le hle
        have htake : l.take 16 = l := List.take_of_length_le hle
        rw [hdrop, htake]
        rw [show chunk16 [] = [] from rfl]
        rw [List.flatMap_nil, List.append_nil,
          unpackWord_packChunk l 16 hle]
        exact List.take_left' rfl
      · have htlen : (l.take 16).length = 16 := by
          rw [List.length_take]
          omega
        rw [unpackWord_packChunk (l.take 16) 16 (by omega), htlen]
        rw [show (16 : Nat) - 16 = 0 from rfl, List.replicate_zero, List.append_nil]
        have hsplit : l.length = 16 + (l.length - 16) := by omega
        rw [hsplit, List.take_append_eq_append_take, htlen]
        rw [List.take_of_length_le (by omega : (l.take 16).length ≤ 16 + (l.length - 16))]
        have hrest : 16 + (l.length - 16) - 16 = l.length - 16 := by omega
        rw [hrest]
        have hd : (l.drop 16).length = l.length - 16 := List.length_drop 16 l
        rw [← hd, ih (l.drop 16) (by omega)]
        exact List.take_append_drop 16 l

/-- Unpacking the packed words reproduces the flag array. -/
theorem chunk16_flat (l : List BitPair) :
    ((chunk16 l).flatMap (fun c => unpackWord 16 (packChunk c))).take l.length = l :=
  chunk16_flat_aux l.length l le_rfl

theorem drop_append_exact {α : Type} (a b : List α) {m : Nat} (h : a.length = m) :
    (a ++ b).drop m = b := by
  rw [← h, List.drop_left]

theorem take_append_exact {α : Type} (a b : List α) {m : Nat} (h : a.length = m) :
    (a ++ b).take m = a := by
  rw [← h, List.take_left]

theorem drop_offset_append {α : Type} (a rest : List α) {m : Nat}
    (h : a.length = m) (j : Nat) : (a ++ rest).drop (m + j) = rest.drop j := by
  rw [← h, List.drop_append]

theorem flatMap_uniform_extract {α : Type} [Inhabited α] (enc : α → List Nat)
    (s : Nat) (hlen : ∀ x, (enc x).length = s) :
    ∀ (ks : List α) (rest : List Nat) (i : Nat), i < ks.length →
      ((ks.flatMap enc ++ rest).drop (s * i)).take s = enc (ks.getD i default) := by
  intro ks
  induction ks with
  | nil =>
    intro rest i hi
    simp at hi
  | cons x ks ih =>
    intro rest i hi
    cases i with
    | zero =>
      rw [Nat.mul_zero, List.drop_zero, List.flatMap_cons, List.append_assoc]
      exact take_append_exact _ _ (hlen x)
    | succ j =>
      have hmul : s * (j + 1) = s + s * j := by ring
      rw [List.flatMap_cons, List.append_assoc, hmul,
        drop_offset_append _ _ (hlen x)]
      exact ih rest j (by simpa using hi)

theorem length_flatMap_uniform {α : Type} (enc : α → List Nat) (s : Nat)
    (hlen : ∀ x, (enc x).length = s) (ks : List α) :
    (ks.flatMap enc).length = s * ks.length := by
  induction ks with
  | nil => simp
  | cons x ksr ih =>
    rw [List.flatMap_cons, List.length_append, ih, hlen]
    simp [Nat.mul_succ]
    ring

theorem range_map_getD {α : Type} [Inhabited α] (l : List α) :
    (List.range l.length).map (fun i => l.getD i default) = l := by
  induction l with
  | nil => rfl
  | cons x l ih =>
    show (List.range (l.length + 1)).map _ = _
    rw [List.range_succ_eq_map, List.map_cons, List.map_map]
    have hcomp : ((fun i => (x :: l).getD i default) ∘ (fun i => i + 1)) =
        (fun i => l.getD i default) := by
      funext i
      rfl
    rw [hcomp, ih]
    rfl

theorem flatMap_congr_on {α β : Type} (l : List α) (f g : α → List β)
    (h : ∀ a ∈ l, f a = g a) : l.flatMap f = l.flatMap g := by
  induction l with
  | nil => rfl
  | cons x l ih =>
    rw [List.flatMap_cons, List.flatMap_cons, h x (by simp),
      ih (fun a ha => h a (by simp [ha]))]

theorem flatMap_map_comp {α β γ : Type} (g : α → β) (f : β → List γ) (l : List α) :
    (l.map g).flatMap f = l.flatMap (fun a => f (g a)) := by
  induction l with
  | nil => rfl
  | cons x l ih =>
    rw [List.map_cons, List.flatMap_cons, List.flatMap_cons, ih]

theorem range_flatMap_getD {α β : Type} (l : List α) (f : α → List β) (d : α) :
    (List.range l.length).flatMap (fun j => f (l.getD j d)) = l.flatMap f := by
  induction l with
  | nil => rfl
  | cons x l ih =>
    show (List.range (l.length + 1)).flatMap _ = _
    rw [List.range_succ_eq_map, List.flatMap_cons, flatMap_map_comp]
    have hcomp : (fun a => f ((x :: l).getD (a + 1) d)) =
        (fun a => f (l.getD a d)) := by
      funext a
      rfl
    rw [hcomp, ih]
    rfl

/-- Decoding the written Occupancy Index section reproduces the flags. -/
theorem bpsDecode_bpsWrite (flags : List BitPair) (h1 : flags.length < 2 ^ 64) :
    bpsDecode (bpsWrite flags) = flags := by
  have hwc : (chunk16 flags).length < 2 ^ 64 :=
    lt_of_le_of_lt (chunk16_length_le flags) h1
  have hassoc : bpsWrite flags = encLE 8 flags.length ++
      (encLE 8 (chunk16 flags).length ++
        (chunk16 flags).flatMap (fun c => encLE 4 (packChunk c))) := by
    unfold bpsWrite
    rw [List.append_assoc]
  have h256 : (256 : Nat) ^ 8 = 2 ^ 64 := by norm_num
  have hw0 : word64 (bpsWrite flags) 0 = flags.length := by
    unfold word64
    rw [hassoc, List.drop_zero, take_append_exact _ _ (encLE_length 8 _),
      decLE_encLE_eq _ _ (by omega)]
  have hw8 : word64 (bpsWrite flags) 8 = (chunk16 flags).length := by
    unfold word64
    rw [hassoc, drop_append_exact _ _ (encLE_length 8 _),
      take_append_exact _ _ (encLE_length 8 _), decLE_encLE_eq _ _ (by omega)]
  have hword : ∀ j, j < (chunk16 flags).length →
      decLE (((bpsWrite flags).drop (16 + 4 * j)).take 4) =
        packChunk ((chunk16 flags).getD j []) := by
    intro j hj
    have hsplit : (16 : Nat) + 4 * j = 8 + (8 + 4 * j) := by omega
    rw [hassoc, hsplit, drop_offset_append _ _ (encLE_length 8 _),
      drop_offset_append _ _ (encLE_length 8 _)]
    have hext := flatMap_uniform_extract (fun c => encLE 4 (packChunk c)) 4
      (fun c => encLE_length 4 _) (chunk16 flags) [] j hj
    rw [List.append_nil] at hext
    rw [hext]
    have hmem : (chunk16 flags).getD j [] ∈ chunk16 flags := by
      rw [List.getD_eq_getElem _ _ hj]
      exact List.getElem_mem hj
    have hcl : ((chunk16 flags).getD j []).length ≤ 16 :=
      chunk16_mem_len flags _ hmem
    have hlt : packChunk ((chunk16 flags).getD j []) < 256 ^ 4 := by
      have h4 : (4 : Nat) ^ 16 = 256 ^ 4 := by norm_num
      have hpl := packChunk_lt ((chunk16 flags).getD j [])
      have hle : (4 : Nat) ^ ((chunk16 flags).getD j []).length ≤ 4 ^ 16 :=
        Nat.pow_le_pow_right (by omega) hcl
      omega
    exact decLE_encLE_eq 4 _ hlt
  unfold bpsDecode
  rw [hw8, hw0]
  have hcong : (List.range (chunk16 flags).length).flatMap
      (fun j => unpackWord 16 (decLE (((bpsWrite flags).drop (16 + 4 * j)).take 4))) =
      (List.range (chunk16 flags).length).flatMap
      (fun j => unpackWord 16 (packChunk ((chunk16 flags).getD j []))) := by
    apply flatMap_congr_on
    intro j hj
    rw [hword j (List.mem_range.mp hj)]
  rw [hcong,
    range_flatMap_getD (chunk16 flags) (fun c => unpackWord 16 (packChunk c)) [],
    chunk16_flat]

/-- Writing an owned table and reopening the bytes as a mapped table
reproduces every field that determines membership: the capacity, the count,
the key array and the Occupancy Index — and the result is read-only.
Hypotheses: well-formed array lengths; `keyBytes`/`keyDec` are the raw
fixed-width bytes of the trivially copyable `Key` and their reading back
(`memcpy` round-trip); `doubleBytes` produces 8 bytes; the sizes fit in
64-bit words as they do in the C++ process. -/
theorem openMapped_writeBytes {T : OpenHashSetTC Key}
    (hlk : T.keys.length = T.keySize) (hlff : T.setFlags.length = T.keySize)
    (hkeyRT : ∀ k0, keyDec (keyBytes k0) = k0)
    (hkeyLen : ∀ k0, (keyBytes k0).length = sizeofKey)
    (hdblLF : (doubleBytes T.loadFactor).length = 8)
    (hdblGF : (doubleBytes T.growthFactor).length = 8)
    (hss : T.setSize < 2 ^ 64) (hks : T.keySize < 2 ^ 64)
    (hoff : 40 + sizeofKey * T.keySize + 8 ≤ 2 ^ 64) :
    (openMapped sizeofKey keyDec doubleDec
      (writeBytes sizeofKey keyBytes doubleBytes T)).keySize = T.keySize ∧
    (openMapped sizeofKey keyDec doubleDec
      (writeBytes sizeofKey keyBytes doubleBytes T)).setSize = T.setSize ∧
    (openMapped sizeofKey keyDec doubleDec
      (writeBytes sizeofKey keyBytes doubleBytes T)).keys = T.keys ∧
    (openMapped sizeofKey keyDec doubleDec
      (writeBytes sizeofKey keyBytes doubleBytes T)).setFlags = T.setFlags ∧
    (openMapped sizeofKey keyDec doubleDec
      (writeBytes sizeofKey keyBytes doubleBytes T)).readOnly = true := by
  set KAS := sizeofKey * T.keySize with hKAS
  set pad := if KAS % 8 = 0 then 0 else 8 - KAS % 8 with hpad
  have hpadle : pad ≤ 7 := by
    rw [hpad]
    have := Nat.mod_lt KAS (show 0 < 8 by omega)
    split <;> omega
  set file := writeBytes sizeofKey keyBytes doubleBytes T with hfiledef
  have hfile : file = encLE 8 T.setSize ++ (encLE 8 T.keySize ++
      (doubleBytes T.loadFactor ++ (doubleBytes T.growthFactor ++
      (encLE 8 (40 + KAS + pad) ++ (T.keys.flatMap keyBytes ++
      (List.replicate pad 0 ++ bpsWrite T.setFlags)))))) := rfl
  clear_value file
  have h256 : (256 : Nat) ^ 8 = 2 ^ 64 := by norm_num
  have hKBlen : (T.keys.flatMap keyBytes).length = KAS := by
    rw [length_flatMap_uniform keyBytes sizeofKey hkeyLen, hlk]
  have hPlen : (List.replicate pad (0 : Nat)).length = pad := List.length_replicate _ _
  have hoffv : 40 + KAS + pad < 2 ^ 64 := by omega
  -- the five header fields
  have hw0 : word64 file 0 = T.setSize := by
    unfold word64
    rw [hfile, List.drop_zero, take_append_exact _ _ (encLE_length 8 _),
      decLE_encLE_eq _ _ (by omega)]
  have hw8 : word64 file 8 = T.keySize := by
    unfold word64
    rw [hfile, drop_append_exact _ _ (encLE_length 8 _),
      take_append_exact _ _ (encLE_length 8 _), decLE_encLE_eq _ _ (by omega)]
  have hw32 : word64 file 32 = 40 + KAS + pad := by
    unfold word64
    rw [hfile, show (32 : Nat) = 8 + 24 from rfl,
      drop_offset_append _ _ (encLE_length 8 _),
      show (24 : Nat) = 8 + 16 from rfl,
      drop_offset_append _ _ (encLE_length 8 _),
      show (16 : Nat) = 8 + 8 from rfl,
      drop_offset_append _ _ hdblLF,
      drop_append_exact _ _ hdblGF,
      take_append_exact _ _ (encLE_length 8 _),
      decLE_encLE_eq _ _ (by omega)]
  -- the key array
  have hkeys : ∀ i, i < T.keySize →
      keyDec ((file.drop (40 + sizeofKey * i)).take sizeofKey) =
        T.keys.getD i default := by
    intro i hi
    rw [hfile, show 40 + sizeofKey * i = 8 + (8 + (8 + (8 + (8 + sizeofKey * i))))
        from by omega,
      drop_offset_append _ _ (encLE_length 8 _),
      drop_offset_append _ _ (encLE_length 8 _),
      drop_offset_append _ _ hdblLF,
      drop_offset_append _ _ hdblGF,
      drop_offset_append _ _ (encLE_length 8 _)]
    rw [show (List.replicate pad (0:Nat) ++ bpsWrite T.setFlags) =
      (List.replicate pad (0:Nat) ++ bpsWrite T.setFlags) from rfl]
    rw [flatMap_uniform_extract keyBytes sizeofKey hkeyLen T.keys _ i (by omega),
      hkeyRT]
  -- the Occupancy Index section
  have hflags : file.drop (40 + KAS + pad) = bpsWrite T.setFlags := by
    rw [hfile, show 40 + KAS + pad = 8 + (8 + (8 + (8 + (8 + (KAS + pad)))))
        from by omega,
      drop_offset_append _ _ (encLE_length 8 _),
      drop_offset_append _ _ (encLE_length 8 _),
      drop_offset_append _ _ hdblLF,
      drop_offset_append _ _ hdblGF,
      drop_offset_append _ _ (encLE_length 8 _),
      drop_offset_append _ _ hKBlen,
      drop_append_exact _ _ hPlen]
  refine ⟨hw8, hw0, ?_, ?_, rfl⟩
  · show (List.range (word64 file 8)).map
      (fun i => keyDec ((file.drop (40 + sizeofKey * i)).take sizeofKey)) = T.keys
    rw [hw8]
    have hcong : (List.range T.keySize).map
        (fun i => keyDec ((file.drop (40 + sizeofKey * i)).take sizeofKey)) =
        (List.range T.keySize).map (fun i => T.keys.getD i default) := by
      apply List.map_congr_left
      intro i hi
      exact hkeys i (List.mem_range.mp hi)
    rw [hcong, ← hlk, range_map_getD]
  · show bpsDecode (file.drop (word64 file 32)) = T.setFlags
    rw [hw32, hflags, bpsDecode_bpsWrite _ (by omega)]

/-! ## Concrete tables and evaluation lemmas for instantiations -/

/-- `contains` reads only `keySize`, `keys` and `setFlags` of the table. -/
theorem contains_fields_congr {T U : OpenHashSetTC Key}
    (hk : U.keySize = T.keySize) (hkeys : U.keys = T.keys)
    (hf : U.setFlags = T.setFlags) (k : Key) :
    contains hashFn U k = contains hashFn T k := by
  unfold contains
  rw [hk, hkeys, hf]

/-- The table after the untargeted growth rehash of a default-constructed
set: one default-initialized slot, no occupancy. -/
def T₀lit : OpenHashSetTC Nat :=
  { keys := [0], setFlags := [(false, false)], keySize := 1 }

/-- The table after inserting key `5` into a default-constructed
`OpenHashSetTC` under the identity hash. -/
def T₁lit : OpenHashSetTC Nat :=
  { keys := [5], setFlags := [(true, true)], keySize := 1, setSize := 1 }

/-- The table after `reserve(0)` on `T₁lit`: capacity grown to 2, the key
rehomed to slot `5 % 2 = 1`. -/
def T₂lit : OpenHashSetTC Nat :=
  { keys := [0, 5], setFlags := [(false, false), (true, true)], keySize := 2,
    setSize := 1 }

/-- A concrete Mapped (read-only) instance: the content of `T₁lit` as the
mapping constructor would hold it (an open descriptor, a live mapping, the
read-only flag). -/
def Tmapped : OpenHashSetTC Nat :=
  { keys := [5], setFlags := [(true, true)], keySize := 1, setSize := 1,
    fd := 3, mappingSize := 56, memoryMapping := some 0, readOnly := true }

theorem floor_six_fifths : Nat.floor ((6/5 : ℚ)) = 1 := by
  rw [Nat.floor_eq_iff (by norm_num)]
  norm_num

theorem rehash_empty_eval :
    rehash (fun n : Nat => n) (emptySet : OpenHashSetTC Nat) 0 = T₀lit := by
  have hfl : max ((emptySet : OpenHashSetTC Nat).keySize + 1)
      (Nat.floor ((max 1 (emptySet : OpenHashSetTC Nat).keySize : ℚ) *
        (emptySet : OpenHashSetTC Nat).growthFactor)) = 1 := by
    have hm : (max 1 ((emptySet : OpenHashSetTC Nat).keySize : ℚ)) = 1 := by
      show max (1 : ℚ) (((0 : Nat) : ℚ)) = 1
      norm_num
    rw [hm]
    show max 1 (Nat.floor ((1 : ℚ) * (6/5 : ℚ))) = 1
    rw [one_mul, floor_six_fifths]
    rfl
  unfold rehash
  rw [if_neg (by omega : ¬ (0 : Nat) < 0), hfl]
  rfl

theorem insertImpl_empty_eval :
    insertImpl (fun n : Nat => n) (emptySet : OpenHashSetTC Nat) 5 = T₁lit := by
  have hge : (((emptySet : OpenHashSetTC Nat).setSize : ℚ) ≥
      ((emptySet : OpenHashSetTC Nat).keySize : ℚ) *
        (emptySet : OpenHashSetTC Nat).loadFactor) := by
    show ((0 : Nat) : ℚ) ≥ ((0 : Nat) : ℚ) * (4/5)
    norm_num
  show (if (((emptySet : OpenHashSetTC Nat).setSize : ℚ) ≥
      ((emptySet : OpenHashSetTC Nat).keySize : ℚ) *
        (emptySet : OpenHashSetTC Nat).loadFactor) then _ else _) = T₁lit
  rw [if_pos hge, rehash_empty_eval]
  rfl

theorem insert_empty_eval :
    insert (fun n : Nat => n) (emptySet : OpenHashSetTC Nat) 5 = .ok T₁lit := by
  show Except.ok (insertImpl (fun n : Nat => n) (emptySet : OpenHashSetTC Nat) 5) =
    Except.ok T₁lit
  rw [insertImpl_empty_eval]

theorem Inv_T₁lit : Inv (fun n : Nat => n) T₁lit :=
  Inv_of_reachable (fun n => n)
    (Reachable.insert_step Reachable.init insert_empty_eval)

theorem rehash_T₁lit_eval : rehash (fun n : Nat => n) T₁lit 0 = T₂lit := by
  have hfl : max (T₁lit.keySize + 1)
      (Nat.floor ((max 1 T₁lit.keySize : ℚ) * T₁lit.growthFactor)) = 2 := by
    have hm : (max 1 (T₁lit.keySize : ℚ)) = 1 := by
      show max (1 : ℚ) (((1 : Nat) : ℚ)) = 1
      norm_num
    rw [hm]
    show max 2 (Nat.floor ((1 : ℚ) * (6/5 : ℚ))) = 2
    rw [one_mul, floor_six_fifths]
    rfl
  unfold rehash
  rw [if_neg (by omega : ¬ (0 : Nat) < 0), hfl]
  rfl

/-! ## The claims -/

/-- C1: starting from any reachable Owned table, for every sequence of
insert/erase operations that executes successfully and every key `k`,
`contains k` afterwards equals the net effect of the sequence on `k`: the
last `insert k` / `erase k` wins, inserting a present key and erasing an
absent key change nothing, and operations on other keys are irrelevant.
Any prefix of a sequence is itself such a sequence, so the property holds
after every prefix. -/
theorem claim_C1 {T : OpenHashSetTC Key} (hT : Reachable hashFn T)
    (ops : List (Op Key)) (T' : OpenHashSetTC Key)
    (heq : applyOps hashFn T ops = .ok T') (k : Key) :
    contains hashFn T' k = netLive k ops (contains hashFn T k) :=
  (applyOps_net hashFn (Inv_of_reachable hashFn hT) ops T' heq).2 k

/-- Witness for C1: after inserting `5` into an empty table, `contains 5`
reports the net effect of `[ins 5]`. -/
theorem claim_C1_witness :
    contains (fun n : Nat => n)
      (insertImpl (fun n : Nat => n) (emptySet : OpenHashSetTC Nat) 5) 5 =
      netLive 5 [Op.ins 5]
        (contains (fun n : Nat => n) (emptySet : OpenHashSetTC Nat) 5) :=
  claim_C1 (fun n : Nat => n) Reachable.init [Op.ins 5]
    (insertImpl (fun n : Nat => n) (emptySet : OpenHashSetTC Nat) 5) rfl 5

/-- C2: writing an Owned table with `write` and reopening the bytes
through the mapping constructor yields a read-only table with the same
`size()` and the same `contains` verdict on every key.  The hypotheses
say: the stored lengths are consistent; `keyBytes`/`keyDec` are the raw
fixed-width bytes of the trivially copyable `Key` and their reading back
(the `memcpy` round-trip); `doubleBytes` emits 8 bytes; and the sizes fit
in 64-bit machine words, as they do in the C++ process. -/
theorem claim_C2 {T : OpenHashSetTC Key} (_hro : T.readOnly = false)
    (hlk : T.keys.length = T.keySize) (hlff : T.setFlags.length = T.keySize)
    (hkeyRT : ∀ k0, keyDec (keyBytes k0) = k0)
    (hkeyLen : ∀ k0, (keyBytes k0).length = sizeofKey)
    (hdblLF : (doubleBytes T.loadFactor).length = 8)
    (hdblGF : (doubleBytes T.growthFactor).length = 8)
    (hss : T.setSize < 2 ^ 64) (hks : T.keySize < 2 ^ 64)
    (hoff : 40 + sizeofKey * T.keySize + 8 ≤ 2 ^ 64) :
    size (openMapped sizeofKey keyDec doubleDec
        (writeBytes sizeofKey keyBytes doubleBytes T)) = size T ∧
    (openMapped sizeofKey keyDec doubleDec
        (writeBytes sizeofKey keyBytes doubleBytes T)).readOnly = true ∧
    write sizeofKey keyBytes doubleBytes T =
      .ok (writeBytes sizeofKey keyBytes doubleBytes T) ∧
    ∀ k, contains hashFn (openMapped sizeofKey keyDec doubleDec
        (writeBytes sizeofKey keyBytes doubleBytes T)) k =
      contains hashFn T k := by
  obtain ⟨hk, hs, hkeys, hflags, hro2⟩ :=
    openMapped_writeBytes sizeofKey keyBytes keyDec doubleBytes doubleDec
      hlk hlff hkeyRT hkeyLen hdblLF hdblGF hss hks hoff
  exact ⟨hs, hro2, rfl, fun k => contains_fields_congr hashFn hk hkeys hflags k⟩

/-- Witness for C2 at a one-key table of `Nat` keys serialized as single
bytes, with a stub 8-byte double codec. -/
theorem claim_C2_witness :
    size (openMapped 1 (fun l => l.headD 0) (fun _ => (0 : ℚ))
        (writeBytes 1 (fun n : Nat => [n]) (fun _ => List.replicate 8 0) T₁lit)) =
      size T₁lit ∧
    (openMapped 1 (fun l => l.headD 0) (fun _ => (0 : ℚ))
        (writeBytes 1 (fun n : Nat => [n]) (fun _ => List.replicate 8 0)
          T₁lit)).readOnly = true ∧
    contains (fun n : Nat => n)
      (openMapped 1 (fun l => l.headD 0) (fun _ => (0 : ℚ))
        (writeBytes 1 (fun n : Nat => [n]) (fun _ => List.replicate 8 0) T₁lit))
      5 = contains (fun n : Nat => n) T₁lit 5 := by
  obtain ⟨h1, h2, h3, h4⟩ :=
    claim_C2 (fun n : Nat => n) 1 (fun n : Nat => [n]) (fun l => l.headD 0)
      (fun _ => List.replicate 8 0) (fun _ => (0 : ℚ)) (T := T₁lit) rfl rfl rfl
      (fun k0 => rfl) (fun k0 => rfl) rfl rfl (by decide) (by decide) (by decide)
  exact ⟨h1, h2, h4 5⟩

/-- C3 (code bug): `erase` on a default-constructed, zero-capacity Owned
table computes `hash(key) % keySize` with `keySize == 0` — it lacks the
`keySize == 0` early return that `contains` (line 295) and `insert`
(line 251) both have — so the claimed harmless no-op is instead a modulo
by zero (undefined behaviour), surfaced in the model as
`GradyError.ModuloByZero`.  On a non-empty table the claimed no-op
behaviour does hold: erasing the absent key `3` from the one-key table
`T₁lit` returns the table unchanged. -/
theorem claim_C3 :
    erase (fun n : Nat => n) (emptySet : OpenHashSetTC Nat) 0 =
      .error .ModuloByZero ∧
    erase (fun n : Nat => n) T₁lit 3 = .ok T₁lit :=
  ⟨rfl, rfl⟩

/-- C4 (amended): `count ≤ capacity` holds for every reachable Owned
table.  The original claim's second half — the strict bound
`count < capacity·loadFactor` immediately after every successful insert —
fails, see the counterexample: the pre-insert rehash only fires when
`count ≥ capacity·loadFactor` held already before that insert. -/
theorem claim_C4 {T : OpenHashSetTC Key} (hT : Reachable hashFn T) :
    T.setSize ≤ T.keySize := by
  have hInv := Inv_of_reachable hashFn hT
  rw [hInv.2.1, ← hInv.1.2.1]
  exact countLive_le_length _

/-- Witness for C4 at the one-key table reached by inserting `5`. -/
theorem claim_C4_witness : T₁lit.setSize ≤ T₁lit.keySize :=
  claim_C4 (fun n : Nat => n)
    (Reachable.insert_step Reachable.init insert_empty_eval)

/-- Counterexample to C4 as stated: the very first insert into an empty
table succeeds and yields `count = 1`, `capacity = 1`, `loadFactor = 4/5`,
so the claimed strict post-insert bound `count < capacity·loadFactor` is
false there. -/
theorem claim_C4_counterexample :
    insert (fun n : Nat => n) (emptySet : OpenHashSetTC Nat) 5 = .ok T₁lit ∧
    ¬ ((T₁lit.setSize : ℚ) < (T₁lit.keySize : ℚ) * T₁lit.loadFactor) :=
  ⟨insert_empty_eval, by
    show ¬ (((1 : Nat) : ℚ) < ((1 : Nat) : ℚ) * (4/5))
    norm_num⟩

/-- C5 (amended): on a read-only (Mapped) table, `insert`, `erase`,
`reserve` and `clear` all fail with `ReadOnlyViolation` — and, being pure
failures, leave the table unchanged.  `write`, however, performs no
read-only check (source lines 418-442) and succeeds on a Mapped instance;
the original claim's inclusion of `write` among the rejected calls is
refuted by the counterexample. -/
theorem claim_C5 (T : OpenHashSetTC Key) (hro : T.readOnly = true) :
    (∀ k, insert hashFn T k = .error .ReadOnlyViolation) ∧
    (∀ k, erase hashFn T k = .error .ReadOnlyViolation) ∧
    (∀ m, reserve hashFn T m = .error .ReadOnlyViolation) ∧
    clear T = .error .ReadOnlyViolation ∧
    write sizeofKey keyBytes doubleBytes T =
      .ok (writeBytes sizeofKey keyBytes doubleBytes T) := by
  refine ⟨fun k => ?_, fun k => ?_, fun m => ?_, ?_, rfl⟩
  · unfold insert
    rw [if_pos hro]
  · unfold erase
    rw [if_pos hro]
  · unfold reserve
    rw [if_pos hro]
  · unfold clear
    rw [if_pos hro]

/-- Witness for C5 at the Mapped instance `Tmapped`. -/
theorem claim_C5_witness :
    insert (fun n : Nat => n) Tmapped 7 = .error .ReadOnlyViolation ∧
    erase (fun n : Nat => n) Tmapped 7 = .error .ReadOnlyViolation ∧
    reserve (fun n : Nat => n) Tmapped 3 = .error .ReadOnlyViolation ∧
    clear Tmapped = .error .ReadOnlyViolation ∧
    write 1 (fun n : Nat => [n]) (fun _ => List.replicate 8 0) Tmapped =
      .ok (writeBytes 1 (fun n : Nat => [n]) (fun _ => List.replicate 8 0)
        Tmapped) := by
  obtain ⟨h1, h2, h3, h4, h5⟩ :=
    claim_C5 (fun n : Nat => n) 1 (fun n : Nat => [n])
      (fun _ => List.replicate 8 0) Tmapped rfl
  exact ⟨h1 7, h2 7, h3 3, h4, h5⟩

/-- Counterexample to C5 as stated: `write` on a Mapped (read-only)
instance does not raise `ReadOnlyViolation` — it succeeds. -/
theorem claim_C5_counterexample :
    Tmapped.readOnly = true ∧
    write 1 (fun n : Nat => [n]) (fun _ => List.replicate 8 0) Tmapped =
      .ok (writeBytes 1 (fun n : Nat => [n]) (fun _ => List.replicate 8 0)
        Tmapped) :=
  ⟨rfl, rfl⟩

/-- C6 (amended): copy assignment from a Mapped instance fails fast with
`InvalidCopy` and the destination never aliases the mapping; copy
CONSTRUCTION, however, performs no such check (source lines 134-138): it
silently succeeds, producing an Owned deep copy — one holding no mapping
(`memoryMapping = none`, `readOnly = false`, `fd = -1`), so no aliasing
arises, but no error is raised either, refuting the original claim's
"any attempt to copy fails fast". -/
theorem claim_C6 (t s : OpenHashSetTC Key) (hro : s.readOnly = true) :
    copyAssign t s = .error .InvalidCopy ∧
    (copyCtor s).memoryMapping = none ∧
    (copyCtor s).readOnly = false ∧
    (copyCtor s).fd = -1 ∧
    (copyCtor s).keySize = s.keySize ∧
    (copyCtor s).setSize = s.setSize ∧
    (copyCtor s).setFlags = s.setFlags := by
  refine ⟨?_, rfl, rfl, rfl, rfl, rfl, rfl⟩
  unfold copyAssign
  rw [if_pos hro]

/-- Witness for C6 at the Mapped instance `Tmapped`. -/
theorem claim_C6_witness :
    copyAssign (emptySet : OpenHashSetTC Nat) Tmapped = .error .InvalidCopy ∧
    (copyCtor Tmapped).memoryMapping = none ∧
    (copyCtor Tmapped).readOnly = false ∧
    (copyCtor Tmapped).fd = -1 ∧
    (copyCtor Tmapped).keySize = Tmapped.keySize ∧
    (copyCtor Tmapped).setSize = Tmapped.setSize ∧
    (copyCtor Tmapped).setFlags = Tmapped.setFlags :=
  claim_C6 (emptySet : OpenHashSetTC Nat) Tmapped rfl

/-- Counterexample to C6 as stated: copy construction from a Mapped
instance does not fail — it yields an owned table with the source's
content. -/
theorem claim_C6_counterexample :
    Tmapped.readOnly = true ∧
    (copyCtor Tmapped).keys = [5] ∧
    (copyCtor Tmapped).readOnly = false ∧
    (copyCtor Tmapped).memoryMapping = none :=
  ⟨rfl, rfl, rfl, rfl⟩

/-- C7 (code bug): the move constructor copies only the data fields and
resets only `keys`, `keySize` and `setSize` on the source.  Moving the
Mapped instance `Tmapped`: the destination holds no mapping
(`memoryMapping = none`, `fd = -1`, `readOnly = false`,
`mappingSize = 0`) while the moved-from source still holds the mapping
and the descriptor, so the source's destructor still unmaps and closes
them — the opposite of the claimed transfer.  Move ASSIGNMENT (source
lines 215-234) transfers and clears all of these fields, as the claim and
the spec describe. -/
theorem claim_C7 :
    (moveCtor Tmapped).1.memoryMapping = none ∧
    (moveCtor Tmapped).1.fd = -1 ∧
    (moveCtor Tmapped).1.readOnly = false ∧
    (moveCtor Tmapped).1.mappingSize = 0 ∧
    (moveCtor Tmapped).2.memoryMapping = some 0 ∧
    (moveCtor Tmapped).2.fd = 3 ∧
    (moveAssign (emptySet : OpenHashSetTC Nat) Tmapped).1.memoryMapping =
      some 0 ∧
    (moveAssign (emptySet : OpenHashSetTC Nat) Tmapped).1.readOnly = true ∧
    (moveAssign (emptySet : OpenHashSetTC Nat) Tmapped).1.fd = 3 ∧
    (moveAssign (emptySet : OpenHashSetTC Nat) Tmapped).2.memoryMapping =
      none ∧
    (moveAssign (emptySet : OpenHashSetTC Nat) Tmapped).2.fd = -1 :=
  ⟨rfl, rfl, rfl, rfl, rfl, rfl, rfl, rfl, rfl, rfl, rfl⟩

/-- C8 (amended): for an Owned table satisfying the invariant and any
requested capacity `n`, `reserve(n)` succeeds, and membership and `size()`
are always preserved; when `0 < n < count` the call is a no-op; when
`0 < n` and `count ≤ n` the new slot count is `⌊n / loadFactor⌋`; when
`n = 0` — the case refuting the original claim's "smaller than the count
means no-op" — the table instead grows to
`max(capacity + 1, ⌊max(1, capacity)·growthFactor⌋)` slots. -/
theorem claim_C8 {T : OpenHashSetTC Key} (hInv : Inv hashFn T) (n : Nat) :
    reserve hashFn T n = .ok (rehash hashFn T n) ∧
    (∀ k, contains hashFn (rehash hashFn T n) k = contains hashFn T k) ∧
    size (rehash hashFn T n) = size T ∧
    (0 < n → n < T.setSize → rehash hashFn T n = T) ∧
    (0 < n → T.setSize ≤ n →
      (rehash hashFn T n).keySize = Nat.floor ((n : ℚ) / T.loadFactor)) ∧
    (n = 0 → (rehash hashFn T n).keySize =
      max (T.keySize + 1) (Nat.floor ((max 1 T.keySize : ℚ) * T.growthFactor))) := by
  obtain ⟨hInvN, hcont, hss, hks, hnop, hgrow⟩ := rehash_spec hashFn hInv n
  refine ⟨?_, hcont, hss, hnop, hks, hgrow⟩
  unfold reserve
  rw [if_neg (by simp [hInv.2.2.2.2])]

/-- Witness for C8: `reserve 5` on the one-key table. -/
theorem claim_C8_witness :
    reserve (fun n : Nat => n) T₁lit 5 =
      .ok (rehash (fun n : Nat => n) T₁lit 5) ∧
    contains (fun n : Nat => n) (rehash (fun n : Nat => n) T₁lit 5) 5 =
      contains (fun n : Nat => n) T₁lit 5 ∧
    size (rehash (fun n : Nat => n) T₁lit 5) = size T₁lit := by
  obtain ⟨h1, h2, h3, -, -, -⟩ := claim_C8 (fun n : Nat => n) Inv_T₁lit 5
  exact ⟨h1, h2 5, h3⟩

/-- Counterexample to C8 as stated: `reserve(0)` on a table with one live
entry (`0 < count`, so the request is smaller than the count) is NOT a
no-op — the capacity grows from 1 to 2. -/
theorem claim_C8_counterexample :
    0 < T₁lit.setSize ∧
    reserve (fun n : Nat => n) T₁lit 0 = .ok T₂lit ∧
    T₂lit.keySize ≠ T₁lit.keySize := by
  refine ⟨by decide, ?_, by decide⟩
  show Except.ok (rehash (fun n : Nat => n) T₁lit 0) = Except.ok T₂lit
  rw [rehash_T₁lit_eval]

/-- C9: `contains` is a total Boolean function — in the source it has no
throw path, and `keySize == 0` returns `false` before the probe modulo is
taken — and it answers `false` on every key that is not live: absent
keys, tombstoned (erased) keys, and any query on an empty or
zero-capacity table. -/
theorem claim_C9 {T : OpenHashSetTC Key}
    (hRep : Rep hashFn T.keySize T.keys T.setFlags) (k : Key) :
    (T.keySize = 0 → contains hashFn T k = false) ∧
    (¬ liveP T.keySize T.keys T.setFlags k → contains hashFn T k = false) := by
  constructor
  · intro hz
    unfold contains
    rw [if_pos hz]
  · intro hnl
    cases hc : contains hashFn T k with
    | false => rfl
    | true => exact absurd ((contains_iff_live hashFn hRep k).mp hc) hnl

/-- Witness for C9: a query on the empty table answers `false`. -/
theorem claim_C9_witness :
    contains (fun n : Nat => n) (emptySet : OpenHashSetTC Nat) 0 = false :=
  (claim_C9 (fun n : Nat => n) (Inv_empty (fun n : Nat => n)).1 0).1 rfl

/-- C10: after `clear()` on an Owned table the size is 0 and every
`contains` query answers `false` (both occupancy bits of every slot are
reset, tombstone history included), while the slot capacity `keySize` and
the key storage `keys` are left at their pre-clear content. -/
theorem claim_C10 {T : OpenHashSetTC Key} (hro : T.readOnly = false) :
    clear T = .ok { T with setFlags := clearFlags T.setFlags, setSize := 0 } ∧
    size ({ T with setFlags := clearFlags T.setFlags, setSize := 0 } :
      OpenHashSetTC Key) = 0 ∧
    (∀ k, contains hashFn ({ T with setFlags := clearFlags T.setFlags, setSize := 0 } : OpenHashSetTC Key) k = false) ∧
    ({ T with setFlags := clearFlags T.setFlags, setSize := 0 } :
      OpenHashSetTC Key).keySize = T.keySize ∧
    ({ T with setFlags := clearFlags T.setFlags, setSize := 0 } :
      OpenHashSetTC Key).keys = T.keys := by
  obtain ⟨h1, h2, -⟩ := clear_spec hashFn (T := T) hro
  exact ⟨h1, rfl, h2, rfl, rfl⟩

/-- Witness for C10: clearing the one-key table. -/
theorem claim_C10_witness :
    clear T₁lit = .ok { T₁lit with setFlags := clearFlags T₁lit.setFlags, setSize := 0 } ∧
    size ({ T₁lit with setFlags := clearFlags T₁lit.setFlags, setSize := 0 } :
      OpenHashSetTC Nat) = 0 ∧
    contains (fun n : Nat => n) ({ T₁lit with setFlags := clearFlags T₁lit.setFlags, setSize := 0 } : OpenHashSetTC Nat) 5 = false := by
  obtain ⟨h1, h2, h3, -, -⟩ := claim_C10 (fun n : Nat => n) (T := T₁lit) rfl
  exact ⟨h1, h2, h3 5⟩

end gradylib
